import Mathlib

/-!
Verification of the Go rules engine in `src/components/GoBoard.tsx`,
`src/game/rules/goRules.ts`, `src/game/constants.ts` and `src/game/ai/*.ts`.

Boards are matrices of cells holding `0` (EMPTY), `1` (BLACK) or `2` (WHITE),
mirroring `export const EMPTY = 0; BLACK = 1; WHITE = 2`.  A board is a list of
rows; a JavaScript out-of-bounds read (`board[r][c]` yielding `undefined`) is
modelled by the sentinel value `3`, which compares unequal to every stone value
exactly as `undefined` does under `===` against `0`, `1`, `2`.

The breadth-first searches in `hasLiberties` and the territory flood fill are
`while (queue.length > 0)` loops; they are embedded with an explicit fuel
argument.  The fuel `5 * size * size + 5` dominates the loop's iteration count
(each visit of a cell adds at most four queue entries and at most `size * size`
cells are ever visited), a fact proved below where needed.
-/

namespace GoGame

/-- `export const EMPTY = 0`. -/
def EMPTY : Nat := 0

/-- `export const BLACK = 1`. -/
def BLACK : Nat := 1

/-- `export const WHITE = 2`. -/
def WHITE : Nat := 2

/-- A board: list of rows of cells (`Player[][]` in the source). -/
abbrev Board := List (List Nat)

/-- Read `board[r][c]`; out-of-bounds reads give the `undefined` sentinel `3`. -/
def cell (b : Board) (r c : Nat) : Nat :=
  ((b.get? r).bind (fun row => row.get? c)).getD 3

/-- Write `board[r][c] = v` (never called out of bounds by the source). -/
def setCell (b : Board) (r c : Nat) (v : Nat) : Board :=
  b.set r (((b.get? r).getD []).set c v)

/-- `Array(size).fill(null).map(() => Array(size).fill(x))`. -/
def mkMatrix (n : Nat) (x : α) : List (List α) :=
  List.replicate n (List.replicate n x)

/-- `initializeBoard` in `GoBoard.tsx`: a `size × size` board of `EMPTY`. -/
def initBoard (n : Nat) : Board := mkMatrix n EMPTY

/-- Read `visited[r][c]`; an out-of-bounds read (`undefined`) is falsy. -/
def getV (v : List (List Bool)) (r c : Nat) : Bool :=
  ((v.get? r).bind (fun row => row.get? c)).getD false

/-- Write `visited[r][c] = true`. -/
def setV (v : List (List Bool)) (r c : Nat) : List (List Bool) :=
  v.set r (((v.get? r).getD []).set c true)

/-- `const directions = [[-1, 0], [1, 0], [0, -1], [0, 1]]`. -/
def directions : List (Int × Int) := [(-1, 0), (1, 0), (0, -1), (0, 1)]

/-- The bounds test `adjRow >= 0 && adjRow < boardSize && adjCol >= 0 && adjCol < boardSize`. -/
def inBoundsI (n : Nat) (ar ac : Int) : Prop :=
  0 ≤ ar ∧ ar < (n : Int) ∧ 0 ≤ ac ∧ ac < (n : Int)

instance (n : Nat) (ar ac : Int) : Decidable (inBoundsI n ar ac) := by
  unfold inBoundsI; infer_instance

/-- Result of `hasLiberties`: `{ hasLiberty, group }`. -/
structure LibResult where
  hasLiberty : Bool
  group : List (Nat × Nat)
deriving DecidableEq

/-- The `while (queue.length > 0)` loop of `hasLiberties`, with explicit fuel.
State: queue, visited matrix, accumulated group, liberty flag. -/
def libLoop (b : Board) (color : Nat) (n : Nat) :
    Nat → List (Nat × Nat) → List (List Bool) → List (Nat × Nat) → Bool → LibResult
  | 0, _, _, group, hasLib => ⟨hasLib, group⟩
  | _ + 1, [], _, group, hasLib => ⟨hasLib, group⟩
  | fuel + 1, (r, c) :: rest, visited, group, hasLib =>
    if getV visited r c then
      libLoop b color n fuel rest visited group hasLib
    else
      let visited' := setV visited r c
      let group' := group ++ [(r, c)]
      let st := directions.foldl
        (fun (acc : List (Nat × Nat) × Bool) d =>
          let ar : Int := (r : Int) + d.1
          let ac : Int := (c : Int) + d.2
          if inBoundsI n ar ac then
            let nr := ar.toNat
            let nc := ac.toNat
            if cell b nr nc = EMPTY then (acc.1, true)
            else if cell b nr nc = color ∧ ¬ getV visited' nr nc then
              (acc.1 ++ [(nr, nc)], acc.2)
            else acc
          else acc)
        (rest, hasLib)
      libLoop b color n fuel st.1 visited' group' st.2

/-- `hasLiberties(board, startRow, startCol, boardSize)` from `goRules.ts`. -/
def hasLiberties (b : Board) (startRow startCol : Nat) (n : Nat) : LibResult :=
  let color := cell b startRow startCol
  if color = EMPTY then ⟨false, []⟩
  else libLoop b color n (5 * n * n + 5) [(startRow, startCol)] (mkMatrix n false) [] false

/-- One direction of the neighbour scan in `isSuicideMove`: an in-bounds
adjacent opponent stone whose group has no liberty (a capture that would
legalise the placement). -/
def suicideDir (testBoard : Board) (row col player : Nat) (n : Nat)
    (d : Int × Int) : Bool :=
  let ar : Int := (row : Int) + d.1
  let ac : Int := (col : Int) + d.2
  if inBoundsI n ar ac then
    let nr := ar.toNat
    let nc := ac.toNat
    let adjStone := cell testBoard nr nc
    if adjStone ≠ EMPTY ∧ adjStone ≠ player then
      ¬ (hasLiberties testBoard nr nc n).hasLiberty
    else false
  else false

/-- `isSuicideMove(board, row, col, player, boardSize)` from `goRules.ts`. -/
def isSuicideMove (b : Board) (row col player : Nat) (n : Nat) : Bool :=
  let testBoard := setCell b row col player
  if (hasLiberties testBoard row col n).hasLiberty then false
  else if directions.any (suicideDir testBoard row col player n) then false
  else true

/-- Accumulator of the capture loop in `checkCaptures`. -/
structure CapState where
  newBoard : Board
  captures : Nat
  capturedPositions : List (Nat × Nat)
deriving DecidableEq

/-- Result of `checkCaptures`: `{ newBoard, captures, capturedPositions, koPosition }`. -/
structure CaptureResult where
  newBoard : Board
  captures : Nat
  capturedPositions : List (Nat × Nat)
  koPosition : Option (Nat × Nat)
deriving DecidableEq

/-- The inner `for (const [gr, gc] of group)` loop of `checkCaptures`: remove
one captured stone and record it. -/
def capRemove (acc2 : CapState) (g : Nat × Nat) : CapState :=
  ⟨setCell acc2.newBoard g.1 g.2 EMPTY, acc2.captures + 1,
    acc2.capturedPositions ++ [g]⟩

/-- One direction of the capture scan in `checkCaptures`: if the in-bounds
neighbour holds an opponent stone whose group has no liberty, remove the whole
group. -/
def capBody (row col player : Nat) (n : Nat) (acc : CapState) (d : Int × Int) :
    CapState :=
  let ar : Int := (row : Int) + d.1
  let ac : Int := (col : Int) + d.2
  if inBoundsI n ar ac then
    let nr := ar.toNat
    let nc := ac.toNat
    let adjStone := cell acc.newBoard nr nc
    if adjStone ≠ EMPTY ∧ adjStone ≠ player then
      let res := hasLiberties acc.newBoard nr nc n
      if ¬ res.hasLiberty then res.group.foldl capRemove acc
      else acc
    else acc
  else acc

/-- `checkCaptures(board, row, col, player, boardSize)` from `goRules.ts`. -/
def checkCaptures (b : Board) (row col player : Nat) (n : Nat) : CaptureResult :=
  let st := directions.foldl (capBody row col player n) ⟨b, 0, []⟩
  { newBoard := st.newBoard
    captures := st.captures
    capturedPositions := st.capturedPositions
    -- `captures === 1 ? {row: capturedPositions[0][0], col: capturedPositions[0][1]} : null`;
    -- with `captures = 1` the list is nonempty, so `head?` is the element `[0]`.
    koPosition := if st.captures = 1 then st.capturedPositions.head? else none }

/-- `isKoViolation(koPosition, row, col)` from `goRules.ts`. -/
def isKoViolation (koPosition : Option (Nat × Nat)) (row col : Nat) : Bool :=
  match koPosition with
  | none => false
  | some p => decide (p.1 = row ∧ p.2 = col)

/-- `borderColors.add(c)`: a JS `Set` keeps one copy of each element in
insertion order. -/
def addColor (s : List Nat) (c : Nat) : List Nat :=
  if c ∈ s then s else s ++ [c]

/-- The `while (queue.length > 0)` loop of `floodFill` in `calculateScore`
(`GoBoard.tsx`), with explicit fuel.  State: queue, visited matrix, collected
territory cells, border colors.  Returns (territory, borderColors, visited). -/
def ffLoop (b : Board) (n : Nat) :
    Nat → List (Nat × Nat) → List (List Bool) → List (Nat × Nat) → List Nat →
    List (Nat × Nat) × List Nat × List (List Bool)
  | 0, _, visited, terr, borders => (terr, borders, visited)
  | _ + 1, [], visited, terr, borders => (terr, borders, visited)
  | fuel + 1, (r, c) :: rest, visited, terr, borders =>
    if getV visited r c then
      ffLoop b n fuel rest visited terr borders
    else if cell b r c ≠ EMPTY then
      ffLoop b n fuel rest visited terr (addColor borders (cell b r c))
    else
      let visited' := setV visited r c
      let terr' := terr ++ [(r, c)]
      let queue' := directions.foldl
        (fun (q : List (Nat × Nat)) d =>
          let ar : Int := (r : Int) + d.1
          let ac : Int := (c : Int) + d.2
          if inBoundsI n ar ac then
            let nr := ar.toNat
            let nc := ac.toNat
            if ¬ getV visited' nr nc then q ++ [(nr, nc)] else q
          else q)
        rest
      ffLoop b n fuel queue' visited' terr' borders

/-- `floodFill(startRow, startCol)` inside `calculateScore`: flood the maximal
empty region, collecting its cells and bordering stone colors; returns the
region, its owner, and the updated shared `visited` matrix. -/
def floodFill (b : Board) (n : Nat) (startRow startCol : Nat)
    (visited : List (List Bool)) : List (Nat × Nat) × Nat × List (List Bool) :=
  if getV visited startRow startCol ∨ cell b startRow startCol ≠ EMPTY then
    ([], EMPTY, visited)
  else
    let res := ffLoop b n (5 * n * n + 5) [(startRow, startCol)] visited [] []
    let owner := if res.2.1.length = 1 then res.2.1.headD EMPTY else EMPTY
    (res.1, owner, res.2.2)

/-- `GameScore` from `goTypes.ts`. -/
structure GameScore where
  blackScore : Nat
  whiteScore : Nat
  blackTerritory : Nat
  whiteTerritory : Nat
deriving DecidableEq

/-- One cell of the scan in `calculateScore` from `GoBoard.tsx` (the closure
captures `board`, `blackCaptures`, `whiteCaptures`, `boardSize`; they are
parameters here): flood-fill an unvisited empty cell's region and credit it to
its owner.  The accumulator carries the shared `visited` matrix and the two
territory counters. -/
def scoreCell (b : Board) (n : Nat) (acc : List (List Bool) × Nat × Nat)
    (row col : Nat) : List (List Bool) × Nat × Nat :=
  if ¬ getV acc.1 row col ∧ cell b row col = EMPTY then
    let res := floodFill b n row col acc.1
    if res.2.1 = BLACK then (res.2.2, acc.2.1 + res.1.length, acc.2.2)
    else if res.2.1 = WHITE then (res.2.2, acc.2.1, acc.2.2 + res.1.length)
    else (res.2.2, acc.2.1, acc.2.2)
  else acc

/-- `calculateScore` from `GoBoard.tsx`: scan the board row-major, flood-fill
each unvisited empty region, total the territories, and add each side's
capture counter to its score (no komi is added anywhere). -/
def calculateScore (b : Board) (blackCaptures whiteCaptures : Nat) (n : Nat) :
    GameScore :=
  let st := (List.range n).foldl
    (fun acc row =>
      (List.range n).foldl (fun acc col => scoreCell b n acc row col) acc)
    (mkMatrix n false, 0, 0)
  { blackScore := st.2.1 + blackCaptures
    whiteScore := st.2.2 + whiteCaptures
    blackTerritory := st.2.1
    whiteTerritory := st.2.2 }

/-- `GameMove` from `goTypes.ts`.  Coordinates are integers because a pass is
recorded with the sentinel `row = col = -1`.  The wall-clock `timestamp` field
is omitted: no engine operation reads it. -/
structure GameMove where
  player : Nat
  row : Int
  col : Int
  captures : Nat
  isPass : Bool
deriving DecidableEq

/-- The engine-relevant React state of `GoBoard` (board, player, capture
counters, history, pass counter, status, ko, score display).  Presentation-only
state (hover position, toast message, capture animation) is omitted. -/
structure GameState where
  boardSize : Nat
  board : Board
  currentPlayer : Nat
  blackCaptures : Nat
  whiteCaptures : Nat
  moveHistory : List GameMove
  passCount : Nat
  gameStatus : String
  koPosition : Option (Nat × Nat)
  gameScore : GameScore
  showScore : Bool
deriving DecidableEq

/-- The initial state of `GoBoard` (also the result of `resetGameWithSize`). -/
def initialState (n : Nat) : GameState where
  boardSize := n
  board := initBoard n
  currentPlayer := BLACK
  blackCaptures := 0
  whiteCaptures := 0
  moveHistory := []
  passCount := 0
  gameStatus := "Playing"
  koPosition := none
  gameScore := ⟨0, 0, 0, 0⟩
  showScore := false

/-- The four move-rejection kinds surfaced by `handleStonePlacement`. -/
inductive Rejection where
  | occupiedCell
  | gameFinished
  | koViolation
  | suicideMove
deriving DecidableEq

/-- `isValidMove(row, col)` from `GoBoard.tsx`. -/
def isValidMove (s : GameState) (row col : Nat) : Bool :=
  if cell s.board row col ≠ EMPTY then false
  else if s.gameStatus ≠ "Playing" then false
  else if isKoViolation s.koPosition row col then false
  else if isSuicideMove s.board row col s.currentPlayer s.boardSize then false
  else true

/-- `handleStonePlacement(row, col)` from `GoBoard.tsx`.  Each early `return`
after a failed check is modelled by yielding the rejection kind together with
the unchanged state; a passed gauntlet yields `none` and the updated state. -/
def handleStonePlacementE (s : GameState) (row col : Nat) :
    Option Rejection × GameState :=
  if cell s.board row col ≠ EMPTY then (some .occupiedCell, s)
  else if s.gameStatus ≠ "Playing" then (some .gameFinished, s)
  else if isKoViolation s.koPosition row col then (some .koViolation, s)
  else if isSuicideMove s.board row col s.currentPlayer s.boardSize then
    (some .suicideMove, s)
  else
    let newBoard := setCell s.board row col s.currentPlayer
    let res := checkCaptures newBoard row col s.currentPlayer s.boardSize
    (none,
      { s with
        board := res.newBoard
        koPosition := res.koPosition
        whiteCaptures :=
          if s.currentPlayer = BLACK ∧ res.captures > 0 then
            s.whiteCaptures + res.captures
          else s.whiteCaptures
        blackCaptures :=
          if s.currentPlayer = WHITE ∧ res.captures > 0 then
            s.blackCaptures + res.captures
          else s.blackCaptures
        moveHistory :=
          s.moveHistory ++ [⟨s.currentPlayer, (row : Int), (col : Int), res.captures, false⟩]
        currentPlayer := if s.currentPlayer = BLACK then WHITE else BLACK
        passCount := 0 })

/-- `handlePass()` from `GoBoard.tsx`.  Note that it never touches
`koPosition`. -/
def handlePassE (s : GameState) : GameState :=
  let newPassCount := s.passCount + 1
  let history' := s.moveHistory ++ [⟨s.currentPlayer, -1, -1, 0, true⟩]
  if newPassCount ≥ 2 then
    { s with
      passCount := newPassCount
      moveHistory := history'
      gameStatus := "Finished"
      gameScore := calculateScore s.board s.blackCaptures s.whiteCaptures s.boardSize
      showScore := true
      currentPlayer := if s.currentPlayer = BLACK then WHITE else BLACK }
  else
    { s with
      passCount := newPassCount
      moveHistory := history'
      currentPlayer := if s.currentPlayer = BLACK then WHITE else BLACK }

/-- One iteration of the replay loop in `undoMove`: a pass is skipped, a
placement is re-applied through `checkCaptures`.  State:
(board, blackCaptures, whiteCaptures, koPosition). -/
def replayMove (n : Nat) (st : Board × Nat × Nat × Option (Nat × Nat))
    (m : GameMove) : Board × Nat × Nat × Option (Nat × Nat) :=
  if m.isPass then st
  else
    let b1 := setCell st.1 m.row.toNat m.col.toNat m.player
    let res := checkCaptures b1 m.row.toNat m.col.toNat m.player n
    (res.newBoard,
      (if m.player = BLACK then st.2.1 else st.2.1 + res.captures),
      (if m.player = BLACK then st.2.2.1 + res.captures else st.2.2.1),
      res.koPosition)

/-- The whole replay loop of `undoMove`: rebuild board, capture counters and ko
position from scratch by replaying a history on an empty board. -/
def replayState (n : Nat) (history : List GameMove) :
    Board × Nat × Nat × Option (Nat × Nat) :=
  history.foldl (replayMove n) (initBoard n, 0, 0, none)

/-- `undoMove()` from `GoBoard.tsx`: drop the last move and reconstruct the
state by replaying the remaining history from an empty board. -/
def undoMove (s : GameState) : GameState :=
  if s.moveHistory = [] then s
  else
    let newHistory := s.moveHistory.dropLast
    let rep := replayState s.boardSize newHistory
    let lastMove := s.moveHistory.getLast?.getD ⟨0, -1, -1, 0, true⟩
    { s with
      moveHistory := newHistory
      board := rep.1
      blackCaptures := rep.2.1
      whiteCaptures := rep.2.2.1
      koPosition := rep.2.2.2
      currentPlayer := lastMove.player
      gameStatus := if s.gameStatus = "Finished" then "Playing" else s.gameStatus
      showScore := if s.gameStatus = "Finished" then false else s.showScore
      -- `newHistory.slice(-2).filter(move => move.isPass).length`
      passCount := ((newHistory.drop (newHistory.length - 2)).filter
        (fun m => m.isPass)).length }

/-- `STAR_POINTS` from `game/constants.ts`. -/
def starPoints (n : Nat) : List (Nat × Nat) :=
  if n = 9 then [(2, 2), (2, 6), (6, 2), (6, 6), (4, 4)]
  else if n = 13 then [(3, 3), (3, 9), (9, 3), (9, 9), (6, 6)]
  else if n = 19 then [(3, 3), (3, 15), (15, 3), (15, 15), (9, 9)]
  else []

/-- The legal-move enumeration loop shared by the AI strategies (row-major). -/
def validMovesList (n : Nat) (isValid : Nat → Nat → Bool) : List (Nat × Nat) :=
  (List.range n).foldl
    (fun acc row =>
      (List.range n).foldl
        (fun acc col => if isValid row col then acc ++ [(row, col)] else acc)
        acc)
    []

/-- `makeRandomMove` from `game/ai/randomAI.ts`.  `Math.random()` is modelled
by the parameter `rnd ∈ [0, 1)`; the drawn index is
`Math.floor(rnd * validMoves.length)`. -/
def makeRandomMove (b : Board) (currentPlayer : Nat) (n : Nat)
    (isValid : Nat → Nat → Bool) (rnd : ℚ) : Option (Nat × Nat) :=
  let validMoves := validMovesList n isValid
  if validMoves.isEmpty then none
  else validMoves.get? (Int.toNat ⌊rnd * validMoves.length⌋)

/-- The liberty count of the new group in `makeHeuristicMove`: distinct empty
cells orthogonally adjacent to the group (a JS `Set` of `"r,c"` strings). -/
def countGroupLiberties (testBoard : Board) (n : Nat)
    (group : List (Nat × Nat)) : Nat :=
  (group.foldl
    (fun (acc : List (Nat × Nat)) g =>
      directions.foldl
        (fun acc2 d =>
          let ar : Int := (g.1 : Int) + d.1
          let ac : Int := (g.2 : Int) + d.2
          if inBoundsI n ar ac then
            let nr := ar.toNat
            let nc := ac.toNat
            if cell testBoard nr nc = 0 ∧ ¬ (nr, nc) ∈ acc2 then acc2 ++ [(nr, nc)]
            else acc2
          else acc2)
        acc)
    []).length

/-- One cell of the liberty-maximising scan in `makeHeuristicMove`: keep the
legal move whose new group has strictly the most distinct liberties so far. -/
def heuristicBody (b : Board) (currentPlayer n : Nat)
    (isValid : Nat → Nat → Bool) (row : Nat)
    (acc : Option (Nat × Nat) × Int) (col : Nat) : Option (Nat × Nat) × Int :=
  if isValid row col then
    let testBoard := setCell b row col currentPlayer
    let res := hasLiberties testBoard row col n
    if res.hasLiberty then
      let libs := countGroupLiberties testBoard n res.group
      if (libs : Int) > acc.2 then (some (row, col), (libs : Int))
      else acc
    else acc
  else acc

/-- `makeHeuristicMove` from `game/ai/index.ts`: prefer a star point in the
first ten moves, then the legal move maximising the new group's liberty count
(strict improvement, row-major scan), and finally fall back to
`makeRandomMove`. -/
def makeHeuristicMove (b : Board) (currentPlayer : Nat) (n : Nat)
    (isValid : Nat → Nat → Bool) (rnd : ℚ) : Option (Nat × Nat) :=
  -- `board.flat().filter(cell => cell !== 0).length`
  let totalMoves := (b.flatten.filter (fun x => x ≠ 0)).length
  let starHit :=
    if totalMoves < 10 then (starPoints n).find? (fun p => isValid p.1 p.2)
    else none
  match starHit with
  | some p => some p
  | none =>
    let best := (List.range n).foldl
      (fun acc row =>
        (List.range n).foldl (heuristicBody b currentPlayer n isValid row) acc)
      (none, -1)
    match best.1 with
    | some p => some p
    | none => makeRandomMove b currentPlayer n isValid rnd

/-! ## Theorems -/

set_option maxRecDepth 2000000

/-- **C5.** For every move attempt, the four legality checks are evaluated in
the fixed order occupied-cell, game-finished, Ko, suicide, and a rejected
attempt reports exactly one rejection kind — the first check in that precedence
order that fails; an attempt is accepted exactly when `isValidMove` (which runs
the same four checks in the same order) accepts it. -/
theorem c5_rejection_order (s : GameState) (row col : Nat) :
    ((handleStonePlacementE s row col).1 = some .occupiedCell ↔
      cell s.board row col ≠ EMPTY)
  ∧ ((handleStonePlacementE s row col).1 = some .gameFinished ↔
      cell s.board row col = EMPTY ∧ s.gameStatus ≠ "Playing")
  ∧ ((handleStonePlacementE s row col).1 = some .koViolation ↔
      cell s.board row col = EMPTY ∧ s.gameStatus = "Playing" ∧
      isKoViolation s.koPosition row col = true)
  ∧ ((handleStonePlacementE s row col).1 = some .suicideMove ↔
      cell s.board row col = EMPTY ∧ s.gameStatus = "Playing" ∧
      isKoViolation s.koPosition row col = false ∧
      isSuicideMove s.board row col s.currentPlayer s.boardSize = true)
  ∧ ((handleStonePlacementE s row col).1 = none ↔
      isValidMove s row col = true) := by
  unfold handleStonePlacementE isValidMove
  split_ifs <;> simp_all

/-- Witness for C5 at a concrete input: on a fresh 9×9 board the attempt at
(0,0) is accepted, matching `isValidMove`. -/
theorem c5_rejection_order_witness :
    (handleStonePlacementE (initialState 9) 0 0).1 = none ↔
      isValidMove (initialState 9) 0 0 = true :=
  (c5_rejection_order (initialState 9) 0 0).2.2.2.2

/-- A rejected attempt returns the state untouched (each failed check is an
early `return` before any update). -/
lemma place_rejected_eq (s : GameState) (row col : Nat) (k : Rejection)
    (h : (handleStonePlacementE s row col).1 = some k) :
    (handleStonePlacementE s row col).2 = s := by
  unfold handleStonePlacementE at h ⊢
  split_ifs at h ⊢ <;> simp_all

/-- **C6.** Every rejected move attempt (any of the four rejection kinds)
leaves the entire game state unchanged: there is no partial mutation on
rejection. -/
theorem c6_rejection_frame (s : GameState) (row col : Nat) (k : Rejection)
    (h : (handleStonePlacementE s row col).1 = some k) :
    (handleStonePlacementE s row col).2 = s :=
  place_rejected_eq s row col k h

/-- The state reached after Black plays (0,0) on a fresh 9×9 board; used to
exhibit a concrete rejected attempt. -/
def c6DemoState : GameState := (handleStonePlacementE (initialState 9) 0 0).2

/-- Witness for C6: replaying on the occupied cell (0,0) is rejected as
`OccupiedCell` and the state is exactly unchanged. -/
theorem c6_rejection_frame_witness :
    (handleStonePlacementE c6DemoState 0 0).1 = some .occupiedCell
  ∧ (handleStonePlacementE c6DemoState 0 0).2 = c6DemoState :=
  ⟨by decide, c6_rejection_frame c6DemoState 0 0 .occupiedCell (by decide)⟩

/-- **C10.** In status PLAYING, a pass leaves the board contents and the active
Ko position (and both capture counters and the board size) unchanged; it only
increments the consecutive-pass counter, appends one pass record with sentinel
coordinates `row = col = -1` and `captures = 0`, flips the current player, and
— exactly on the second consecutive pass — sets the game status to Finished and
the score display. -/
theorem c10_pass_frame (s : GameState) (h : s.gameStatus = "Playing") :
    (handlePassE s).board = s.board
  ∧ (handlePassE s).koPosition = s.koPosition
  ∧ (handlePassE s).blackCaptures = s.blackCaptures
  ∧ (handlePassE s).whiteCaptures = s.whiteCaptures
  ∧ (handlePassE s).boardSize = s.boardSize
  ∧ (handlePassE s).passCount = s.passCount + 1
  ∧ (handlePassE s).moveHistory =
      s.moveHistory ++ [⟨s.currentPlayer, -1, -1, 0, true⟩]
  ∧ (handlePassE s).currentPlayer =
      (if s.currentPlayer = BLACK then WHITE else BLACK)
  ∧ (s.passCount + 1 < 2 →
      (handlePassE s).gameStatus = "Playing" ∧
      (handlePassE s).gameScore = s.gameScore ∧
      (handlePassE s).showScore = s.showScore)
  ∧ (s.passCount + 1 ≥ 2 →
      (handlePassE s).gameStatus = "Finished" ∧
      (handlePassE s).showScore = true ∧
      (handlePassE s).gameScore =
        calculateScore s.board s.blackCaptures s.whiteCaptures s.boardSize) := by
  refine ⟨?_, ?_, ?_, ?_, ?_, ?_, ?_, ?_, ?_, ?_⟩ <;>
    simp only [handlePassE] <;> split_ifs <;> simp_all

/-- Witness for C10 on a fresh 9×9 board. -/
theorem c10_pass_frame_witness :
    (initialState 9).gameStatus = "Playing"
  ∧ (handlePassE (initialState 9)).board = (initialState 9).board
  ∧ (handlePassE (initialState 9)).koPosition = (initialState 9).koPosition :=
  ⟨rfl, (c10_pass_frame (initialState 9) rfl).1,
    (c10_pass_frame (initialState 9) rfl).2.1⟩

/-- **C7.** In status PLAYING, each pass increments the consecutive-pass
counter and always flips the current player (including the pass that ends the
game); two consecutive passes with no intervening placement move the status
from PLAYING to FINISHED and trigger the score computation, while an accepted
placement resets the consecutive-pass counter to zero. -/
theorem c7_pass_transitions (s : GameState) (h : s.gameStatus = "Playing") :
    (handlePassE s).passCount = s.passCount + 1
  ∧ (handlePassE s).currentPlayer =
      (if s.currentPlayer = BLACK then WHITE else BLACK)
  ∧ (s.passCount = 0 → (handlePassE s).gameStatus = "Playing")
  ∧ (s.passCount + 1 ≥ 2 →
      (handlePassE s).gameStatus = "Finished" ∧
      (handlePassE s).showScore = true ∧
      (handlePassE s).gameScore =
        calculateScore s.board s.blackCaptures s.whiteCaptures s.boardSize)
  ∧ (s.passCount = 0 →
      (handlePassE (handlePassE s)).gameStatus = "Finished" ∧
      (handlePassE (handlePassE s)).showScore = true ∧
      (handlePassE (handlePassE s)).gameScore =
        calculateScore s.board s.blackCaptures s.whiteCaptures s.boardSize ∧
      (handlePassE (handlePassE s)).passCount = 2)
  ∧ (∀ row col, (handleStonePlacementE s row col).1 = none →
      (handleStonePlacementE s row col).2.passCount = 0) := by
  refine ⟨?_, ?_, ?_, ?_, ?_, ?_⟩
  · simp only [handlePassE]; split_ifs <;> rfl
  · simp only [handlePassE]; split_ifs <;> rfl
  · intro h0
    simp only [handlePassE]; split_ifs <;> simp_all
  · intro hge
    simp only [handlePassE]
    split_ifs <;> exact ⟨rfl, rfl, rfl⟩
  · intro h0
    -- first pass: counter 1, board/captures/boardSize unchanged; second pass ends
    simp [handlePassE, h0]
  · intro row col hacc
    simp only [handleStonePlacementE] at hacc ⊢
    split_ifs at hacc ⊢ <;> simp_all

/-- Witness for C7 on a fresh 9×9 board. -/
theorem c7_pass_transitions_witness :
    (initialState 9).gameStatus = "Playing"
  ∧ (handlePassE (handlePassE (initialState 9))).gameStatus = "Finished" :=
  ⟨rfl, ((c7_pass_transitions (initialState 9) rfl).2.2.2.2.1 rfl).1⟩

/-- Through the capture-removal loop, `captures` counts exactly the recorded
captured positions. -/
lemma capRemove_foldl_len (g : List (Nat × Nat)) (st : CapState)
    (h : st.captures = st.capturedPositions.length) :
    (g.foldl capRemove st).captures =
      (g.foldl capRemove st).capturedPositions.length := by
  induction g generalizing st with
  | nil => simpa using h
  | cons p g ih =>
    simp only [List.foldl_cons]
    exact ih _ (by simp [capRemove, h])

lemma capBody_len (row col player n : Nat) (st : CapState) (d : Int × Int)
    (h : st.captures = st.capturedPositions.length) :
    (capBody row col player n st d).captures =
      (capBody row col player n st d).capturedPositions.length := by
  simp only [capBody]
  split_ifs <;> first | exact h | exact capRemove_foldl_len _ _ h

lemma capFold_len (ds : List (Int × Int)) (row col player n : Nat)
    (st : CapState) (h : st.captures = st.capturedPositions.length) :
    (ds.foldl (capBody row col player n) st).captures =
      (ds.foldl (capBody row col player n) st).capturedPositions.length := by
  induction ds generalizing st with
  | nil => simpa using h
  | cons d ds ih => exact ih _ (capBody_len _ _ _ _ _ _ h)

/-- `checkCaptures` counts exactly the stones it records as captured. -/
lemma checkCaptures_len (b : Board) (row col player n : Nat) :
    (checkCaptures b row col player n).captures =
      (checkCaptures b row col player n).capturedPositions.length := by
  simp only [checkCaptures]
  exact capFold_len _ _ _ _ _ _ rfl

/-- The ko field of `checkCaptures` in terms of its other fields. -/
lemma checkCaptures_ko (b : Board) (row col player n : Nat) :
    (checkCaptures b row col player n).koPosition =
      if (checkCaptures b row col player n).captures = 1
      then (checkCaptures b row col player n).capturedPositions.head?
      else none := rfl

/-- A concrete reachable position: Black plays (0,0), White (0,1), Black (0,2),
White (5,5), then Black (1,1) captures the single white stone at (0,1), which
sets the Ko position to (0,1). -/
def koDemoState : GameState :=
  (handleStonePlacementE
    ((handleStonePlacementE
      ((handleStonePlacementE
        ((handleStonePlacementE
          ((handleStonePlacementE (initialState 9) 0 0).2) 0 1).2) 0 2).2)
        5 5).2) 1 1).2

/-- **C4 counterexample.** The claim says every move other than a
single-stone capture — *including a pass* — leaves the Ko position cleared
(`none`).  But `handlePass` never touches `koPosition`: after a single-stone
capture set Ko to (0,1), a pass (which captures zero stones) leaves it at
(0,1), not `none`. -/
theorem c4_counterexample :
    koDemoState.koPosition = some (0, 1)
  ∧ (handlePassE koDemoState).koPosition = some (0, 1)
  ∧ (handlePassE koDemoState).koPosition ≠ none := by
  refine ⟨by decide, by decide, by decide⟩

/-- **C4 (amended).** For every applied placement, the Ko position after the
move equals the coordinate of the single captured stone if and only if the move
captured exactly one stone, and a placement capturing zero or two-or-more
stones clears the Ko position; a pass, however, leaves the Ko position
unchanged rather than clearing it. -/
theorem c4_amended :
    (∀ (b : Board) (row col player n : Nat),
      ((checkCaptures b row col player n).captures = 1 →
        ∃ q, (checkCaptures b row col player n).capturedPositions = [q]
           ∧ (checkCaptures b row col player n).koPosition = some q)
    ∧ ((checkCaptures b row col player n).captures ≠ 1 →
        (checkCaptures b row col player n).koPosition = none))
  ∧ (∀ s : GameState, (handlePassE s).koPosition = s.koPosition)
  ∧ (∀ (s : GameState) (row col : Nat),
      (handleStonePlacementE s row col).1 = none →
      (handleStonePlacementE s row col).2.koPosition =
        (checkCaptures (setCell s.board row col s.currentPlayer) row col
          s.currentPlayer s.boardSize).koPosition) := by
  refine ⟨?_, ?_, ?_⟩
  · intro b row col player n
    constructor
    · intro h1
      have hlen := checkCaptures_len b row col player n
      rw [h1] at hlen
      obtain ⟨q, hq⟩ := List.length_eq_one.mp hlen.symm
      exact ⟨q, hq, by rw [checkCaptures_ko, if_pos h1, hq]; rfl⟩
    · intro h1
      rw [checkCaptures_ko, if_neg h1]
  · intro s
    simp only [handlePassE]; split_ifs <;> rfl
  · intro s row col hacc
    simp only [handleStonePlacementE] at hacc ⊢
    split_ifs at hacc ⊢ <;> simp_all

/-- Witness for the amended C4 on a concrete single-stone capture:
Black at (1,1) on a 3×3 board captures the lone white stone at (0,1). -/
theorem c4_amended_witness :
    (checkCaptures [[1, 2, 1], [0, 1, 0], [0, 0, 0]] 1 1 1 3).captures = 1
  ∧ ∃ q, (checkCaptures [[1, 2, 1], [0, 1, 0], [0, 0, 0]] 1 1 1 3).capturedPositions = [q]
       ∧ (checkCaptures [[1, 2, 1], [0, 1, 0], [0, 0, 0]] 1 1 1 3).koPosition = some q :=
  ⟨by decide, (c4_amended.1 [[1, 2, 1], [0, 1, 0], [0, 0, 0]] 1 1 1 3).1 (by decide)⟩

/-- Characterisation of an accepted placement: the state update performed by
the final branch of `handleStonePlacement`. -/
lemma place_accepted_eq (s : GameState) (row col : Nat)
    (hacc : (handleStonePlacementE s row col).1 = none) :
    (handleStonePlacementE s row col).2 =
      { s with
        board := (checkCaptures (setCell s.board row col s.currentPlayer)
          row col s.currentPlayer s.boardSize).newBoard
        koPosition := (checkCaptures (setCell s.board row col s.currentPlayer)
          row col s.currentPlayer s.boardSize).koPosition
        whiteCaptures :=
          if s.currentPlayer = BLACK ∧ (checkCaptures (setCell s.board row col
              s.currentPlayer) row col s.currentPlayer s.boardSize).captures > 0
          then s.whiteCaptures + (checkCaptures (setCell s.board row col
            s.currentPlayer) row col s.currentPlayer s.boardSize).captures
          else s.whiteCaptures
        blackCaptures :=
          if s.currentPlayer = WHITE ∧ (checkCaptures (setCell s.board row col
              s.currentPlayer) row col s.currentPlayer s.boardSize).captures > 0
          then s.blackCaptures + (checkCaptures (setCell s.board row col
            s.currentPlayer) row col s.currentPlayer s.boardSize).captures
          else s.blackCaptures
        moveHistory := s.moveHistory ++
          [⟨s.currentPlayer, (row : Int), (col : Int),
            (checkCaptures (setCell s.board row col s.currentPlayer) row col
              s.currentPlayer s.boardSize).captures, false⟩]
        currentPlayer := if s.currentPlayer = BLACK then WHITE else BLACK
        passCount := 0 } := by
  simp only [handleStonePlacementE] at hacc ⊢
  split_ifs at hacc ⊢ <;> simp_all

/-- The scoring formula exactly as the spec words it, for comparison with the
implementation: each side scores its territory plus the stones *it* captured,
and the komi is added to White's score only. -/
def specScore (blackTerr whiteTerr capturedByBlack capturedByWhite komi : ℚ) :
    ℚ × ℚ :=
  (blackTerr + capturedByBlack, whiteTerr + capturedByWhite + komi)

/-- **C1 counterexample.** The claim (and the spec's formula) give White
`territory + captures + komi`, so a fully empty board with komi 6.5 and no
captures must score White = 6.5 and White wins.  The implementation's
`calculateScore` has no komi term at all: the empty 9×9 board scores
Black = 0 and White = 0 — an exact tie, not a 6.5-point White win. -/
theorem c1_counterexample :
    (calculateScore (initBoard 9) 0 0 9).whiteScore = 0
  ∧ (calculateScore (initBoard 9) 0 0 9).blackScore =
      (calculateScore (initBoard 9) 0 0 9).whiteScore
  ∧ (specScore 0 0 0 0 (13 / 2)).2 = 13 / 2
  ∧ ((0 : ℚ) ≠ 13 / 2) :=
  ⟨by decide, by decide, by norm_num [specScore], by norm_num⟩

/-- **C1 (amended).** The score computation returns
`blackScore = blackTerritory + blackCaptures` and
`whiteScore = whiteTerritory + whiteCaptures` with **no komi term**, where the
`blackCaptures` counter is incremented by White's capturing placements and
`whiteCaptures` by Black's capturing placements; scoring a fully empty board
with no captures yields Black = 0 and White = 0 — a tie — regardless of komi. -/
theorem c1_amended :
    (∀ (b : Board) (bc wc n : Nat),
      (calculateScore b bc wc n).blackScore =
        (calculateScore b bc wc n).blackTerritory + bc
    ∧ (calculateScore b bc wc n).whiteScore =
        (calculateScore b bc wc n).whiteTerritory + wc)
  ∧ (∀ (s : GameState) (row col : Nat),
      (handleStonePlacementE s row col).1 = none → s.currentPlayer = BLACK →
      (handleStonePlacementE s row col).2.whiteCaptures =
        s.whiteCaptures + (checkCaptures (setCell s.board row col s.currentPlayer)
          row col s.currentPlayer s.boardSize).captures
    ∧ (handleStonePlacementE s row col).2.blackCaptures = s.blackCaptures)
  ∧ (∀ (s : GameState) (row col : Nat),
      (handleStonePlacementE s row col).1 = none → s.currentPlayer = WHITE →
      (handleStonePlacementE s row col).2.blackCaptures =
        s.blackCaptures + (checkCaptures (setCell s.board row col s.currentPlayer)
          row col s.currentPlayer s.boardSize).captures
    ∧ (handleStonePlacementE s row col).2.whiteCaptures = s.whiteCaptures)
  ∧ calculateScore (initBoard 9) 0 0 9 = ⟨0, 0, 0, 0⟩ := by
  refine ⟨fun b bc wc n => ⟨rfl, rfl⟩, ?_, ?_, by decide⟩
  · intro s row col hacc hb
    rw [place_accepted_eq s row col hacc]
    constructor
    · show (if s.currentPlayer = BLACK ∧ _ > 0 then _ else _) = _
      rcases Nat.eq_zero_or_pos (checkCaptures (setCell s.board row col
          s.currentPlayer) row col s.currentPlayer s.boardSize).captures
        with h0 | hpos
      · simp [h0]
      · rw [if_pos ⟨hb, hpos⟩]
    · show (if s.currentPlayer = WHITE ∧ _ > 0 then _ else _) = _
      rw [if_neg]
      rintro ⟨h, -⟩
      rw [hb] at h
      exact absurd h (by decide)
  · intro s row col hacc hw
    rw [place_accepted_eq s row col hacc]
    constructor
    · show (if s.currentPlayer = WHITE ∧ _ > 0 then _ else _) = _
      rcases Nat.eq_zero_or_pos (checkCaptures (setCell s.board row col
          s.currentPlayer) row col s.currentPlayer s.boardSize).captures
        with h0 | hpos
      · simp [h0]
      · rw [if_pos ⟨hw, hpos⟩]
    · show (if s.currentPlayer = BLACK ∧ _ > 0 then _ else _) = _
      rw [if_neg]
      rintro ⟨h, -⟩
      rw [hw] at h
      exact absurd h (by decide)

/-- A concrete position for the amended C1: on a 3×3 board Black captures the
lone white stone at (0,1) by playing (1,1); the capture is credited to the
`whiteCaptures` counter. -/
def c1DemoState : GameState where
  boardSize := 3
  board := [[1, 2, 1], [0, 0, 0], [0, 0, 0]]
  currentPlayer := BLACK
  blackCaptures := 0
  whiteCaptures := 0
  moveHistory := []
  passCount := 0
  gameStatus := "Playing"
  koPosition := none
  gameScore := ⟨0, 0, 0, 0⟩
  showScore := false

/-- Witness for the amended C1 at a concrete capturing placement. -/
theorem c1_amended_witness :
    ((handleStonePlacementE c1DemoState 1 1).1 = none
      ∧ c1DemoState.currentPlayer = BLACK)
  ∧ ((handleStonePlacementE c1DemoState 1 1).2.whiteCaptures =
      c1DemoState.whiteCaptures + (checkCaptures
        (setCell c1DemoState.board 1 1 c1DemoState.currentPlayer) 1 1
        c1DemoState.currentPlayer c1DemoState.boardSize).captures
    ∧ (handleStonePlacementE c1DemoState 1 1).2.blackCaptures =
        c1DemoState.blackCaptures) :=
  ⟨⟨by decide, by decide⟩, c1_amended.2.1 c1DemoState 1 1 (by decide) (by decide)⟩

/-- `libLoop` only ever appends to the group accumulator. -/
lemma libLoop_group_extend (b : Board) (color n : Nat) :
    ∀ (fuel : Nat) (q : List (Nat × Nat)) (v : List (List Bool))
      (g : List (Nat × Nat)) (hl : Bool),
      ∃ t, (libLoop b color n fuel q v g hl).group = g ++ t := by
  intro fuel
  induction fuel with
  | zero => intro q v g hl; exact ⟨[], by simp [libLoop]⟩
  | succ fuel ih =>
    intro q v g hl
    match q with
    | [] => exact ⟨[], by simp [libLoop]⟩
    | (r, c) :: rest =>
      simp only [libLoop]
      split_ifs with hv
      · exact ih rest v g hl
      · obtain ⟨t, ht⟩ := ih _ _ (g ++ [(r, c)]) _
        exact ⟨(r, c) :: t, by rw [ht]; simp⟩

/-- A fresh visited matrix has no marks. -/
lemma getV_mkMatrix_false (n r c : Nat) : getV (mkMatrix n false) r c = false := by
  unfold getV mkMatrix
  simp only [List.get?_eq_getElem?, List.getElem?_replicate]
  split_ifs <;> simp

/-- Starting from a stone, the flood-filled group is nonempty. -/
lemma hasLiberties_group_ne_nil (b : Board) (r c n : Nat)
    (h : cell b r c ≠ EMPTY) : (hasLiberties b r c n).group ≠ [] := by
  simp only [hasLiberties, if_neg h]
  have h5 : 5 * n * n + 5 = (5 * n * n + 4) + 1 := rfl
  rw [h5]
  simp only [libLoop, getV_mkMatrix_false, if_neg (Bool.false_ne_true)]
  obtain ⟨t, ht⟩ := libLoop_group_extend b (cell b r c) n (5 * n * n + 4) _ _ ([] ++ [(r, c)]) _
  rw [ht]
  simp

/-- The capture-removal loop adds exactly the group's size to the counter. -/
lemma capRemove_foldl_captures (g : List (Nat × Nat)) (st : CapState) :
    (g.foldl capRemove st).captures = st.captures + g.length := by
  induction g generalizing st with
  | nil => simp
  | cons p g ih => simp [List.foldl_cons, ih, capRemove]; omega

/-- One capture-scan step never decreases the capture counter. -/
lemma capBody_captures_mono (row col player n : Nat) (st : CapState)
    (d : Int × Int) : st.captures ≤ (capBody row col player n st d).captures := by
  simp only [capBody]
  split_ifs <;> simp [capRemove_foldl_captures]

/-- The capture scan never decreases the capture counter. -/
lemma capFold_captures_mono (ds : List (Int × Int)) (row col player n : Nat)
    (st : CapState) :
    st.captures ≤ (ds.foldl (capBody row col player n) st).captures := by
  induction ds generalizing st with
  | nil => simp
  | cons d ds ih =>
    exact le_trans (capBody_captures_mono row col player n st d) (ih _)

/-- If one capture-scan step does not change the counter, it does not change
the state at all, and that direction would also fail the suicide-rescue scan. -/
lemma capBody_nocap (row col player n : Nat) (st : CapState) (d : Int × Int)
    (h : (capBody row col player n st d).captures = st.captures) :
    capBody row col player n st d = st
  ∧ suicideDir st.newBoard row col player n d = false := by
  revert h
  simp only [capBody, suicideDir]
  split_ifs with h1 h2 h3
  · -- opponent group has a liberty: no capture, and the rescue scan sees it
    exact fun _ => ⟨rfl, by simp [h3]⟩
  · -- in bounds, opponent stone, group without liberty: the group is removed,
    -- so the counter grows by the (nonzero) group size — contradiction
    intro h
    rw [capRemove_foldl_captures] at h
    have hne := hasLiberties_group_ne_nil st.newBoard
      ((row : Int) + d.1).toNat ((col : Int) + d.2).toNat n h2.1
    have hlen : (hasLiberties st.newBoard ((row : Int) + d.1).toNat
        ((col : Int) + d.2).toNat n).group.length ≠ 0 := by
      simpa [List.length_eq_zero] using hne
    omega
  · exact fun _ => ⟨rfl, rfl⟩
  · exact fun _ => ⟨rfl, rfl⟩

/-- If the whole capture scan leaves the counter unchanged, the board and the
recorded positions are untouched and every direction fails the rescue scan. -/
lemma capFold_nocap (ds : List (Int × Int)) (row col player n : Nat)
    (st : CapState)
    (h : (ds.foldl (capBody row col player n) st).captures = st.captures) :
    ds.foldl (capBody row col player n) st = st
  ∧ ∀ d ∈ ds, suicideDir st.newBoard row col player n d = false := by
  induction ds generalizing st with
  | nil => simpa using fun d h => absurd h (List.not_mem_nil d)
  | cons d ds ih =>
    simp only [List.foldl_cons] at h ⊢
    have hmono1 := capBody_captures_mono row col player n st d
    have hmono2 := capFold_captures_mono ds row col player n
      (capBody row col player n st d)
    have hstep : (capBody row col player n st d).captures = st.captures := by
      omega
    obtain ⟨heq, hdir⟩ := capBody_nocap row col player n st d hstep
    rw [heq] at h ⊢
    obtain ⟨hfold, hdirs⟩ := ih st h
    refine ⟨hfold, ?_⟩
    intro d' hd'
    rcases List.mem_cons.mp hd' with rfl | hd'
    · exact hdir
    · exact hdirs d' hd'

/-- If every direction fails the rescue scan, the capture scan is the
identity. -/
lemma capFold_of_dirs_false (ds : List (Int × Int)) (row col player n : Nat)
    (st : CapState)
    (h : ∀ d ∈ ds, suicideDir st.newBoard row col player n d = false) :
    ds.foldl (capBody row col player n) st = st := by
  induction ds with
  | nil => rfl
  | cons d ds ih =>
    have hd := h d (List.mem_cons_self d ds)
    have hstep : capBody row col player n st d = st := by
      revert hd
      simp only [capBody, suicideDir]
      split_ifs with h1 h2 h3
      · exact fun _ => rfl
      · -- the rescue scan reports this direction, contradicting `h`
        intro hd
        simp [h3] at hd
      · exact fun _ => rfl
      · exact fun _ => rfl
    simp only [List.foldl_cons, hstep]
    exact ih (fun d' hd' => h d' (List.mem_cons_of_mem d hd'))

/-- **C3.** For every board, player and empty target cell, a placement is
classified as suicide if and only if, after hypothetically placing the stone
and removing any adjacent opponent groups left with zero liberties (which is
exactly what `checkCaptures` does), the placing player's own group has zero
liberties and no opponent stone was captured; a placement that captures at
least one opponent stone is never classified as suicide. -/
theorem c3_suicide_iff (b : Board) (row col player n : Nat)
    (hempty : cell b row col = EMPTY) (hp : player = BLACK ∨ player = WHITE) :
    (isSuicideMove b row col player n = true ↔
      ((checkCaptures (setCell b row col player) row col player n).captures = 0
      ∧ (hasLiberties
          (checkCaptures (setCell b row col player) row col player n).newBoard
          row col n).hasLiberty = false))
  ∧ ((checkCaptures (setCell b row col player) row col player n).captures > 0 →
      isSuicideMove b row col player n = false) := by
  have hcapb : (checkCaptures (setCell b row col player) row col player n).captures
      = (directions.foldl (capBody row col player n)
          ⟨setCell b row col player, 0, []⟩).captures := rfl
  have hboardb : (checkCaptures (setCell b row col player) row col player n).newBoard
      = (directions.foldl (capBody row col player n)
          ⟨setCell b row col player, 0, []⟩).newBoard := rfl
  have main : isSuicideMove b row col player n = true ↔
      ((checkCaptures (setCell b row col player) row col player n).captures = 0
      ∧ (hasLiberties
          (checkCaptures (setCell b row col player) row col player n).newBoard
          row col n).hasLiberty = false) := by
    constructor
    · intro hs
      simp only [isSuicideMove] at hs
      split_ifs at hs with h1 h2
      have hdirs : ∀ d ∈ directions,
          suicideDir (setCell b row col player) row col player n d = false := by
        intro d hd
        rcases Bool.eq_false_or_eq_true
          (suicideDir (setCell b row col player) row col player n d) with ht | hf
        · exact absurd (List.any_eq_true.mpr ⟨d, hd, ht⟩) h2
        · exact hf
      have hfold := capFold_of_dirs_false directions row col player n
        ⟨setCell b row col player, 0, []⟩ hdirs
      refine ⟨by rw [hcapb, hfold], ?_⟩
      rw [hboardb, hfold]
      simpa using h1
    · rintro ⟨hcap, hlib⟩
      rw [hcapb] at hcap
      obtain ⟨hfold, hdirs⟩ := capFold_nocap directions row col player n
        ⟨setCell b row col player, 0, []⟩ hcap
      rw [hboardb, hfold] at hlib
      have hany : directions.any
          (suicideDir (setCell b row col player) row col player n) = false :=
        List.any_eq_false.mpr (fun d hd => by simp [hdirs d hd])
      simp only [isSuicideMove]
      rw [if_neg (by simp [hlib]), if_neg (by simp [hany])]
  refine ⟨main, fun hpos => ?_⟩
  rcases Bool.eq_false_or_eq_true (isSuicideMove b row col player n) with ht | hf
  · exact absurd (main.mp ht).1 (by omega)
  · exact hf

/-- Witness for C3: on a 2×2 board with black stones at (0,1) and (1,0), a
white stone at the empty corner (0,0) is a suicide. -/
theorem c3_suicide_iff_witness :
    (cell [[0, 1], [1, 0]] 0 0 = EMPTY ∧ (WHITE = BLACK ∨ WHITE = WHITE))
  ∧ (isSuicideMove [[0, 1], [1, 0]] 0 0 WHITE 2 = true ↔
      ((checkCaptures (setCell [[0, 1], [1, 0]] 0 0 WHITE) 0 0 WHITE 2).captures = 0
      ∧ (hasLiberties
          (checkCaptures (setCell [[0, 1], [1, 0]] 0 0 WHITE) 0 0 WHITE 2).newBoard
          0 0 2).hasLiberty = false)) :=
  ⟨⟨by decide, Or.inr rfl⟩,
    (c3_suicide_iff [[0, 1], [1, 0]] 0 0 WHITE 2 (by decide) (Or.inr rfl)).1⟩

/-- The session invariant maintained by the component: the undo replay of the
recorded history reproduces the live board, both capture counters and the ko
position, and all recorded players (and the player to move) are Black or
White. -/
def Consistent (s : GameState) : Prop :=
  replayState s.boardSize s.moveHistory =
    (s.board, s.blackCaptures, s.whiteCaptures, s.koPosition)
  ∧ (s.currentPlayer = BLACK ∨ s.currentPlayer = WHITE)
  ∧ ∀ m ∈ s.moveHistory, m.player = BLACK ∨ m.player = WHITE

/-- The game states the component can actually reach from a fresh game via
placements, passes and undos (`resetGame` yields `initialState` again). -/
inductive Reachable : GameState → Prop where
  | init (n : Nat) : Reachable (initialState n)
  | place (s : GameState) (row col : Nat) (h : Reachable s) :
      Reachable (handleStonePlacementE s row col).2
  | pass (s : GameState) (h : Reachable s) : Reachable (handlePassE s)
  | undo (s : GameState) (h : Reachable s) : Reachable (undoMove s)

lemma replayState_concat (n : Nat) (h : List GameMove) (m : GameMove) :
    replayState n (h ++ [m]) = replayMove n (replayState n h) m := by
  simp [replayState, List.foldl_append]

lemma consistent_init (n : Nat) : Consistent (initialState n) := by
  refine ⟨rfl, Or.inl rfl, ?_⟩
  intro m hm
  simp [initialState] at hm

lemma consistent_pass (s : GameState) (h : Consistent s) :
    Consistent (handlePassE s) := by
  obtain ⟨hrep, hp, hh⟩ := h
  have hfields : (handlePassE s).boardSize = s.boardSize
      ∧ (handlePassE s).board = s.board
      ∧ (handlePassE s).blackCaptures = s.blackCaptures
      ∧ (handlePassE s).whiteCaptures = s.whiteCaptures
      ∧ (handlePassE s).koPosition = s.koPosition
      ∧ (handlePassE s).moveHistory =
          s.moveHistory ++ [⟨s.currentPlayer, -1, -1, 0, true⟩]
      ∧ (handlePassE s).currentPlayer =
          (if s.currentPlayer = BLACK then WHITE else BLACK) := by
    simp only [handlePassE]
    split_ifs <;> exact ⟨rfl, rfl, rfl, rfl, rfl, rfl, rfl⟩
  obtain ⟨h1, h2, h3, h4, h5, h6, h7⟩ := hfields
  refine ⟨?_, ?_, ?_⟩
  · rw [h1, h2, h3, h4, h5, h6, replayState_concat, hrep]
    rfl
  · rw [h7]; split_ifs <;> simp [BLACK, WHITE]
  · rw [h6]
    intro m hm
    rcases List.mem_append.mp hm with hm | hm
    · exact hh m hm
    · simp only [List.mem_singleton] at hm
      subst hm
      exact hp

lemma consistent_place (s : GameState) (row col : Nat) (h : Consistent s) :
    Consistent (handleStonePlacementE s row col).2 := by
  obtain ⟨hrep, hp, hh⟩ := h
  rcases hrej : (handleStonePlacementE s row col).1 with _ | k
  · -- accepted placement
    rw [place_accepted_eq s row col hrej]
    refine ⟨?_, ?_, ?_⟩
    · show replayState s.boardSize (s.moveHistory ++ [_]) = _
      rw [replayState_concat, hrep]
      show replayMove s.boardSize _ _ = _
      simp only [replayMove, if_neg (by simp : ¬ (false = true)),
        Int.toNat_natCast]
      rcases hp with hb | hb <;> rw [hb] <;> simp [BLACK, WHITE] <;>
        split_ifs <;> omega
    · show (if s.currentPlayer = BLACK then WHITE else BLACK) = BLACK ∨ _ = WHITE
      split_ifs <;> simp [BLACK, WHITE]
    · show ∀ m ∈ s.moveHistory ++ [_], _
      intro m hm
      rcases List.mem_append.mp hm with hm | hm
      · exact hh m hm
      · simp only [List.mem_singleton] at hm
        subst hm
        exact hp
  · -- rejected: state unchanged
    rw [place_rejected_eq s row col k hrej]
    exact ⟨hrep, hp, hh⟩

lemma consistent_undo (s : GameState) (h : Consistent s) :
    Consistent (undoMove s) := by
  obtain ⟨hrep, hp, hh⟩ := h
  by_cases hnil : s.moveHistory = []
  · simp only [undoMove, if_pos hnil]
    exact ⟨hrep, hp, hh⟩
  · simp only [undoMove, if_neg hnil]
    refine ⟨rfl, ?_, ?_⟩
    · show ((s.moveHistory.getLast?.getD _).player = BLACK ∨ _)
      rw [List.getLast?_eq_getLast s.moveHistory hnil]
      exact hh _ (List.getLast_mem hnil)
    · intro m hm
      apply hh
      rw [List.dropLast_eq_take] at hm
      exact List.take_subset _ _ hm

/-- Every reachable state satisfies the session invariant. -/
lemma reachable_consistent (s : GameState) (h : Reachable s) : Consistent s := by
  induction h with
  | init n => exact consistent_init n
  | place s row col _ ih => exact consistent_place s row col ih
  | pass s _ ih => exact consistent_pass s ih
  | undo s _ ih => exact consistent_undo s ih

/-- **C2.** For every reachable game state and every accepted placement,
applying the placement and then undoing it restores exactly the prior board
contents, both capture counts, the Ko position, and the current player (undo
reconstructs the state by replaying the remaining history from an empty
board). -/
theorem c2_place_undo (s : GameState) (row col : Nat) (hs : Reachable s)
    (hacc : (handleStonePlacementE s row col).1 = none) :
    (undoMove (handleStonePlacementE s row col).2).board = s.board
  ∧ (undoMove (handleStonePlacementE s row col).2).blackCaptures = s.blackCaptures
  ∧ (undoMove (handleStonePlacementE s row col).2).whiteCaptures = s.whiteCaptures
  ∧ (undoMove (handleStonePlacementE s row col).2).koPosition = s.koPosition
  ∧ (undoMove (handleStonePlacementE s row col).2).currentPlayer = s.currentPlayer := by
  obtain ⟨hrep, hp, hh⟩ := reachable_consistent s hs
  rw [place_accepted_eq s row col hacc]
  simp only [undoMove]
  rw [if_neg (by simp)]
  simp only [List.dropLast_concat, List.getLast?_concat, Option.getD_some]
  rw [hrep]
  simp

/-- Witness for C2: on a fresh 9×9 board, placing at (0,0) and undoing
restores the initial state's board, captures, ko position and player. -/
theorem c2_place_undo_witness :
    (handleStonePlacementE (initialState 9) 0 0).1 = none
  ∧ (undoMove (handleStonePlacementE (initialState 9) 0 0).2).board =
      (initialState 9).board
  ∧ (undoMove (handleStonePlacementE (initialState 9) 0 0).2).currentPlayer =
      (initialState 9).currentPlayer :=
  ⟨by decide,
    (c2_place_undo (initialState 9) 0 0 (Reachable.init 9) (by decide)).1,
    (c2_place_undo (initialState 9) 0 0 (Reachable.init 9) (by decide)).2.2.2.2⟩

/-! ### The AI strategies (C9) -/

lemma validMoves_inner (isValid : Nat → Nat → Bool) (row : Nat) :
    ∀ (cs : List Nat) (acc : List (Nat × Nat)),
      cs.foldl (fun acc col => if isValid row col then acc ++ [(row, col)] else acc) acc
        = acc ++ (cs.filter (fun col => isValid row col)).map (fun col => (row, col)) := by
  intro cs
  induction cs with
  | nil => intro acc; simp
  | cons c cs ih =>
    intro acc
    simp only [List.foldl_cons, List.filter_cons]
    split_ifs with h
    · rw [ih]; simp
    · rw [ih]

/-- The legal-move list enumerates exactly the in-bounds cells accepted by the
validity callback, in row-major order. -/
lemma validMovesList_eq (n : Nat) (isValid : Nat → Nat → Bool) :
    validMovesList n isValid =
      (List.range n).flatMap (fun row =>
        ((List.range n).filter (fun col => isValid row col)).map
          (fun col => (row, col))) := by
  have gen : ∀ (rs : List Nat) (acc : List (Nat × Nat)),
      rs.foldl (fun acc row =>
        (List.range n).foldl
          (fun acc col => if isValid row col then acc ++ [(row, col)] else acc)
          acc) acc
      = acc ++ rs.flatMap (fun row =>
          ((List.range n).filter (fun col => isValid row col)).map
            (fun col => (row, col))) := by
    intro rs
    induction rs with
    | nil => intro acc; simp
    | cons r rs ih =>
      intro acc
      simp only [List.foldl_cons, List.flatMap_cons]
      rw [validMoves_inner, ih, List.append_assoc]
  simpa [validMovesList] using gen (List.range n) []

lemma mem_validMovesList (n : Nat) (isValid : Nat → Nat → Bool) (p : Nat × Nat) :
    p ∈ validMovesList n isValid ↔
      p.1 < n ∧ p.2 < n ∧ isValid p.1 p.2 = true := by
  rcases p with ⟨r, c⟩
  rw [validMovesList_eq]
  simp only [List.mem_flatMap, List.mem_map, List.mem_filter, List.mem_range]
  constructor
  · rintro ⟨row, hrow, col, ⟨hcol, hv⟩, heq⟩
    cases heq
    exact ⟨hrow, hcol, hv⟩
  · rintro ⟨hr, hc, hv⟩
    exact ⟨r, hr, c, ⟨hc, hv⟩, rfl⟩

lemma validMovesList_eq_nil_iff (n : Nat) (isValid : Nat → Nat → Bool) :
    validMovesList n isValid = [] ↔
      ∀ r c, r < n → c < n → isValid r c = false := by
  rw [List.eq_nil_iff_forall_not_mem]
  constructor
  · intro h r c hr hc
    rcases Bool.eq_false_or_eq_true (isValid r c) with ht | hf
    · exact absurd ((mem_validMovesList n isValid (r, c)).mpr ⟨hr, hc, ht⟩)
        (h (r, c))
    · exact hf
  · intro h p hp
    obtain ⟨hr, hc, hv⟩ := (mem_validMovesList n isValid p).mp hp
    rw [h p.1 p.2 hr hc] at hv
    exact Bool.false_ne_true hv

/-- `makeRandomMove` passes iff there is no legal move, and any coordinate it
returns is an in-bounds legal move. -/
lemma makeRandomMove_spec (b : Board) (cp n : Nat) (isValid : Nat → Nat → Bool)
    (rnd : ℚ) (h0 : 0 ≤ rnd) (h1 : rnd < 1) :
    (makeRandomMove b cp n isValid rnd = none ↔
        ∀ r c, r < n → c < n → isValid r c = false)
  ∧ ∀ p, makeRandomMove b cp n isValid rnd = some p →
      p.1 < n ∧ p.2 < n ∧ isValid p.1 p.2 = true := by
  have hidx : validMovesList n isValid ≠ [] →
      (Int.toNat ⌊rnd * ((validMovesList n isValid).length : ℚ)⌋) <
        (validMovesList n isValid).length := by
    intro hne
    have hlen : 0 < (validMovesList n isValid).length := List.length_pos.mpr hne
    have hlenQ : (0 : ℚ) < ((validMovesList n isValid).length : ℚ) := by
      exact_mod_cast hlen
    have hmul : rnd * ((validMovesList n isValid).length : ℚ) <
        ((validMovesList n isValid).length : ℚ) := by
      calc rnd * ((validMovesList n isValid).length : ℚ)
          < 1 * ((validMovesList n isValid).length : ℚ) :=
            mul_lt_mul_of_pos_right h1 hlenQ
        _ = _ := one_mul _
    have hfloor : ⌊rnd * ((validMovesList n isValid).length : ℚ)⌋ <
        ((validMovesList n isValid).length : ℤ) := by
      rw [Int.floor_lt]; exact_mod_cast hmul
    have hnn : 0 ≤ ⌊rnd * ((validMovesList n isValid).length : ℚ)⌋ :=
      Int.floor_nonneg.mpr (mul_nonneg h0 (le_of_lt hlenQ))
    exact (Int.toNat_lt hnn).mpr hfloor
  constructor
  · constructor
    · intro hnone
      rw [← validMovesList_eq_nil_iff]
      by_contra hne
      have hlt := hidx hne
      unfold makeRandomMove at hnone
      rw [if_neg (by simpa [List.isEmpty_iff] using hne)] at hnone
      have hge := List.get?_eq_none.mp hnone
      omega
    · intro hall
      have hnil := (validMovesList_eq_nil_iff n isValid).mpr hall
      unfold makeRandomMove
      rw [if_pos (by simp [hnil])]
  · intro p hp
    simp only [makeRandomMove] at hp
    split_ifs at hp with hemp
    rw [List.get?_eq_getElem?] at hp
    exact (mem_validMovesList n isValid p).mp (List.getElem?_mem hp)

/-- Every star point of a supported board size is in bounds. -/
lemma starPoints_bounds (n : Nat) : ∀ p ∈ starPoints n, p.1 < n ∧ p.2 < n := by
  unfold starPoints
  split_ifs with h9 h13 h19
  · subst h9; decide
  · subst h13; decide
  · subst h19; decide
  · simp

lemma heuristicBody_valid (b : Board) (cp n : Nat) (isValid : Nat → Nat → Bool)
    (row : Nat) (acc : Option (Nat × Nat) × Int) (col : Nat)
    (h : ∀ p, acc.1 = some p → isValid p.1 p.2 = true) :
    ∀ p, (heuristicBody b cp n isValid row acc col).1 = some p →
      isValid p.1 p.2 = true := by
  intro p hp
  simp only [heuristicBody] at hp
  split_ifs at hp with h1 h2 h3
  · simp only at hp
    injection hp with hp
    subst hp
    exact h1
  · exact h _ hp
  · exact h _ hp
  · exact h _ hp

lemma heuristicInner_valid (b : Board) (cp n : Nat) (isValid : Nat → Nat → Bool)
    (row : Nat) :
    ∀ (cs : List Nat) (acc : Option (Nat × Nat) × Int),
      (∀ p, acc.1 = some p → isValid p.1 p.2 = true) →
      ∀ p, (cs.foldl (heuristicBody b cp n isValid row) acc).1 = some p →
        isValid p.1 p.2 = true := by
  intro cs
  induction cs with
  | nil => intro acc h; exact h
  | cons c cs ih =>
    intro acc h
    exact ih _ (heuristicBody_valid b cp n isValid row acc c h)

lemma heuristicOuter_valid (b : Board) (cp n : Nat) (isValid : Nat → Nat → Bool) :
    ∀ (rs : List Nat) (acc : Option (Nat × Nat) × Int),
      (∀ p, acc.1 = some p → isValid p.1 p.2 = true) →
      ∀ p, ((rs.foldl (fun acc row =>
          (List.range n).foldl (heuristicBody b cp n isValid row) acc) acc).1
        = some p) → isValid p.1 p.2 = true := by
  intro rs
  induction rs with
  | nil => intro acc h; exact h
  | cons r rs ih =>
    intro acc h
    exact ih _ (heuristicInner_valid b cp n isValid r (List.range n) acc h)

lemma heuristicBody_skip (b : Board) (cp n : Nat) (isValid : Nat → Nat → Bool)
    (row : Nat) (acc : Option (Nat × Nat) × Int) (col : Nat)
    (hv : isValid row col = false) :
    heuristicBody b cp n isValid row acc col = acc := by
  simp [heuristicBody, hv]

lemma heuristicInner_skip (b : Board) (cp n : Nat) (isValid : Nat → Nat → Bool)
    (row : Nat) (hrow : row < n)
    (hall : ∀ r c, r < n → c < n → isValid r c = false) :
    ∀ (cs : List Nat), (∀ c ∈ cs, c < n) →
      ∀ acc, cs.foldl (heuristicBody b cp n isValid row) acc = acc := by
  intro cs
  induction cs with
  | nil => intro _ acc; rfl
  | cons c cs ih =>
    intro hmem acc
    simp only [List.foldl_cons]
    rw [heuristicBody_skip b cp n isValid row acc c
      (hall row c hrow (hmem c (List.mem_cons_self c cs)))]
    exact ih (fun c' hc' => hmem c' (List.mem_cons_of_mem c hc')) acc

lemma heuristicOuter_skip (b : Board) (cp n : Nat) (isValid : Nat → Nat → Bool)
    (hall : ∀ r c, r < n → c < n → isValid r c = false) :
    ∀ (rs : List Nat), (∀ r ∈ rs, r < n) →
      ∀ acc, rs.foldl (fun acc row =>
        (List.range n).foldl (heuristicBody b cp n isValid row) acc) acc = acc := by
  intro rs
  induction rs with
  | nil => intro _ acc; rfl
  | cons r rs ih =>
    intro hmem acc
    simp only [List.foldl_cons]
    rw [heuristicInner_skip b cp n isValid r (hmem r (List.mem_cons_self r rs))
      hall (List.range n) (fun c hc => List.mem_range.mp hc) acc]
    exact ih (fun r' hr' => hmem r' (List.mem_cons_of_mem r hr')) acc

/-- `makeHeuristicMove`, unfolded into its three stages. -/
lemma makeHeuristicMove_cases (b : Board) (cp n : Nat)
    (isValid : Nat → Nat → Bool) (rnd : ℚ) :
    makeHeuristicMove b cp n isValid rnd =
      match (if (b.flatten.filter (fun x => x ≠ 0)).length < 10
          then (starPoints n).find? (fun p => isValid p.1 p.2) else none) with
      | some p => some p
      | none =>
        match ((List.range n).foldl (fun acc row =>
            (List.range n).foldl (heuristicBody b cp n isValid row) acc)
            (none, -1)).1 with
        | some p => some p
        | none => makeRandomMove b cp n isValid rnd := rfl

/-- `makeHeuristicMove` passes iff there is no legal move, and any coordinate
it returns is a legal move. -/
lemma makeHeuristicMove_spec (b : Board) (cp n : Nat)
    (isValid : Nat → Nat → Bool) (rnd : ℚ) (h0 : 0 ≤ rnd) (h1 : rnd < 1) :
    (makeHeuristicMove b cp n isValid rnd = none ↔
        ∀ r c, r < n → c < n → isValid r c = false)
  ∧ ∀ p, makeHeuristicMove b cp n isValid rnd = some p →
      isValid p.1 p.2 = true := by
  have hrand := makeRandomMove_spec b cp n isValid rnd h0 h1
  refine ⟨⟨?_, ?_⟩, ?_⟩
  · intro hnone
    rw [makeHeuristicMove_cases] at hnone
    rcases hstar : (if (b.flatten.filter (fun x => x ≠ 0)).length < 10
        then (starPoints n).find? (fun p => isValid p.1 p.2) else none)
      with _ | q
    · rw [hstar] at hnone
      rcases hbest : ((List.range n).foldl (fun acc row =>
          (List.range n).foldl (heuristicBody b cp n isValid row) acc)
          (none, -1)).1 with _ | q
      · rw [hbest] at hnone
        exact hrand.1.mp hnone
      · rw [hbest] at hnone
        exact absurd hnone (by simp)
    · rw [hstar] at hnone
      exact absurd hnone (by simp)
  · intro hall
    rw [makeHeuristicMove_cases]
    have hstar : (starPoints n).find? (fun p => isValid p.1 p.2) = none :=
      List.find?_eq_none.mpr (fun p hp => by
        obtain ⟨hr, hc⟩ := starPoints_bounds n p hp
        simp [hall p.1 p.2 hr hc])
    have hif : (if (b.flatten.filter (fun x => x ≠ 0)).length < 10
        then (starPoints n).find? (fun p => isValid p.1 p.2) else none) = none := by
      split_ifs <;> simp [hstar]
    rw [hif]
    rw [heuristicOuter_skip b cp n isValid hall (List.range n)
      (fun r hr => List.mem_range.mp hr) (none, -1)]
    exact hrand.1.mpr hall
  · intro p hp
    rw [makeHeuristicMove_cases] at hp
    rcases hstar : (if (b.flatten.filter (fun x => x ≠ 0)).length < 10
        then (starPoints n).find? (fun p => isValid p.1 p.2) else none)
      with _ | q
    · rw [hstar] at hp
      rcases hbest : ((List.range n).foldl (fun acc row =>
          (List.range n).foldl (heuristicBody b cp n isValid row) acc)
          (none, -1)).1 with _ | q
      · rw [hbest] at hp
        exact (hrand.2 p hp).2.2
      · rw [hbest] at hp
        injection hp with hp
        subst hp
        exact heuristicOuter_valid b cp n isValid (List.range n) (none, -1)
          (by intro p hp; simp at hp) q hbest
    · rw [hstar] at hp
      injection hp with hp
      subst hp
      split_ifs at hstar with hc
      have := List.find?_some hstar
      simpa using this

/-- **C9.** Each AI strategy (random and heuristic), operating only through the
public legality check `isValidMove`, returns no coordinate (so the caller
passes) if and only if zero legal moves exist for the current player; whenever
at least one legal move exists, the strategy returns a legal coordinate. -/
theorem c9_ai_pass_iff (s : GameState) (rnd : ℚ) (h0 : 0 ≤ rnd) (h1 : rnd < 1) :
    (makeRandomMove s.board s.currentPlayer s.boardSize (isValidMove s) rnd = none ↔
        ∀ r c, r < s.boardSize → c < s.boardSize → isValidMove s r c = false)
  ∧ (∀ p, makeRandomMove s.board s.currentPlayer s.boardSize (isValidMove s) rnd
        = some p → isValidMove s p.1 p.2 = true)
  ∧ (makeHeuristicMove s.board s.currentPlayer s.boardSize (isValidMove s) rnd = none ↔
        ∀ r c, r < s.boardSize → c < s.boardSize → isValidMove s r c = false)
  ∧ (∀ p, makeHeuristicMove s.board s.currentPlayer s.boardSize (isValidMove s) rnd
        = some p → isValidMove s p.1 p.2 = true) := by
  have hr := makeRandomMove_spec s.board s.currentPlayer s.boardSize
    (isValidMove s) rnd h0 h1
  have hh := makeHeuristicMove_spec s.board s.currentPlayer s.boardSize
    (isValidMove s) rnd h0 h1
  exact ⟨hr.1, fun p hp => (hr.2 p hp).2.2, hh.1, hh.2⟩

/-- Witness for C9 on a fresh 9×9 board with the random draw 0. -/
theorem c9_ai_pass_iff_witness :
    ((0 : ℚ) ≤ 0 ∧ (0 : ℚ) < 1)
  ∧ (makeRandomMove (initialState 9).board (initialState 9).currentPlayer
      (initialState 9).boardSize (isValidMove (initialState 9)) 0 = none ↔
      ∀ r c, r < (initialState 9).boardSize → c < (initialState 9).boardSize →
        isValidMove (initialState 9) r c = false) :=
  ⟨⟨le_refl 0, by norm_num⟩,
    (c9_ai_pass_iff (initialState 9) 0 (le_refl 0) (by norm_num)).1⟩

/-! ### Territory computation (C8)

The territory flood fill of `calculateScore` is a breadth-first search over the
empty cells.  The following development relates it to the declarative notion of
a maximal connected empty region and its bordering stone colours. -/

/-- A square matrix of side `n` (the board and visited-matrix invariant). -/
def WellSized (l : List (List α)) (n : Nat) : Prop :=
  l.length = n ∧ ∀ row ∈ l, row.length = n

/-- Positions used by the territory analysis. -/
abbrev Pos := Nat × Nat

/-- Orthogonal adjacency of two cells. -/
def Adjacent (p q : Pos) : Prop :=
  (p.1 = q.1 ∧ (p.2 + 1 = q.2 ∨ q.2 + 1 = p.2)) ∨
  (p.2 = q.2 ∧ (p.1 + 1 = q.1 ∨ q.1 + 1 = p.1))

/-- In-bounds for a board of side `n`. -/
def InBounds (n : Nat) (p : Pos) : Prop := p.1 < n ∧ p.2 < n

/-- The cell is empty. -/
def EmptyAt (b : Board) (p : Pos) : Prop := cell b p.1 p.2 = EMPTY

/-- `q` belongs to the maximal connected empty region containing `p`:
reachability through in-bounds empty cells by orthogonal steps. -/
def Region (b : Board) (n : Nat) (p q : Pos) : Prop :=
  Relation.ReflTransGen (fun x y => InBounds n y ∧ EmptyAt b y ∧ Adjacent x y) p q

/-- The colour `col` is on the border of `p`'s region: some stone of that
colour is orthogonally adjacent to a cell of the region. -/
def RegionBorders (b : Board) (n : Nat) (p : Pos) (col : Nat) : Prop :=
  ∃ q u, Region b n p q ∧ Adjacent q u ∧ InBounds n u ∧ ¬ EmptyAt b u ∧
    cell b u.1 u.2 = col

lemma adjacent_symm {p q : Pos} (h : Adjacent p q) : Adjacent q p := by
  rcases h with ⟨h1, h2⟩ | ⟨h1, h2⟩
  · exact Or.inl ⟨h1.symm, h2.symm⟩
  · exact Or.inr ⟨h1.symm, h2.symm⟩

lemma region_refl (b : Board) (n : Nat) (p : Pos) : Region b n p p :=
  Relation.ReflTransGen.refl

lemma region_trans {b : Board} {n : Nat} {p q r : Pos}
    (h1 : Region b n p q) (h2 : Region b n q r) : Region b n p r :=
  Relation.ReflTransGen.trans h1 h2

lemma region_step {b : Board} {n : Nat} {p q u : Pos} (h : Region b n p q)
    (hu : InBounds n u) (he : EmptyAt b u) (ha : Adjacent q u) :
    Region b n p u :=
  h.tail ⟨hu, he, ha⟩

/-- Every cell of the region of an in-bounds empty cell is in bounds and
empty. -/
lemma region_inbounds_empty {b : Board} {n : Nat} {p q : Pos}
    (hp : InBounds n p ∧ EmptyAt b p) (h : Region b n p q) :
    InBounds n q ∧ EmptyAt b q := by
  induction h with
  | refl => exact hp
  | tail _ hstep ih => exact ⟨hstep.1, hstep.2.1⟩

/-- Region reachability is symmetric among in-bounds empty cells. -/
lemma region_symm {b : Board} {n : Nat} {p q : Pos}
    (hp : InBounds n p ∧ EmptyAt b p) (h : Region b n p q) :
    Region b n q p := by
  induction h with
  | refl => exact Relation.ReflTransGen.refl
  | tail hpre hstep ih =>
    rename_i x y
    have hx : InBounds n x ∧ EmptyAt b x := region_inbounds_empty hp hpre
    exact Relation.ReflTransGen.trans
      (Relation.ReflTransGen.single ⟨hx.1, hx.2, adjacent_symm hstep.2.2⟩) ih

/-- Two cells of a common region see the same region. -/
lemma region_congr {b : Board} {n : Nat} {p q x : Pos}
    (hp : InBounds n p ∧ EmptyAt b p) (hq : Region b n p q) :
    (Region b n q x ↔ Region b n p x) :=
  ⟨fun h => region_trans hq h, fun h => region_trans (region_symm hp hq) h⟩

/-- Cells of a common region have the same border colours. -/
lemma regionBorders_congr {b : Board} {n : Nat} {p q : Pos} {col : Nat}
    (hp : InBounds n p ∧ EmptyAt b p) (hq : Region b n p q) :
    (RegionBorders b n q col ↔ RegionBorders b n p col) := by
  constructor
  · rintro ⟨x, u, hx, hrest⟩
    exact ⟨x, u, (region_congr hp hq).mp hx, hrest⟩
  · rintro ⟨x, u, hx, hrest⟩
    exact ⟨x, u, (region_congr hp hq).mpr hx, hrest⟩

/-- Out-of-bounds reads return the sentinel. -/
lemma cell_out_of_bounds {b : Board} {n : Nat} (hb : WellSized b n)
    {r c : Nat} (h : ¬ (r < n ∧ c < n)) : cell b r c = 3 := by
  unfold cell
  simp only [List.get?_eq_getElem?]
  rcases Nat.lt_or_ge r n with hr | hr
  · rcases Nat.lt_or_ge c n with hc | hc
    · exact absurd ⟨hr, hc⟩ h
    · have hrb : r < b.length := by have := hb.1; omega
      rw [List.getElem?_eq_getElem hrb]
      have hrow : b[r].length = n := hb.2 _ (List.getElem_mem hrb)
      simp [List.getElem?_eq_none (by omega : b[r].length ≤ c)]
  · rw [List.getElem?_eq_none (by have := hb.1; omega : b.length ≤ r)]
    rfl

/-- An empty cell is in bounds (the sentinel `3` is not `EMPTY`). -/
lemma inbounds_of_empty {b : Board} {n : Nat} (hb : WellSized b n) {p : Pos}
    (h : EmptyAt b p) : InBounds n p := by
  by_contra hc
  rw [EmptyAt, cell_out_of_bounds hb (by simpa [InBounds] using hc)] at h
  simp [EMPTY] at h

/-- `setV` preserves the matrix dimensions. -/
lemma setV_wellSized {v : List (List Bool)} {n : Nat} (hv : WellSized v n)
    (r c : Nat) : WellSized (setV v r c) n := by
  rcases Nat.lt_or_ge r v.length with hr | hr
  · refine ⟨by simp [setV, hv.1], ?_⟩
    intro row hrow
    rcases List.mem_or_eq_of_mem_set hrow with h | h
    · exact hv.2 row h
    · subst h
      rw [List.get?_eq_getElem?, List.getElem?_eq_getElem hr]
      simp only [Option.getD_some, List.length_set]
      exact hv.2 _ (List.getElem_mem hr)
  · unfold setV
    rw [List.set_eq_of_length_le hr]
    exact hv


/-- `getV` out of the matrix dimensions is `false`. -/
lemma getV_out_of_bounds {v : List (List Bool)} {n : Nat} (hv : WellSized v n)
    {r c : Nat} (h : ¬ (r < n ∧ c < n)) : getV v r c = false := by
  unfold getV
  simp only [List.get?_eq_getElem?]
  rcases Nat.lt_or_ge r n with hr | hr
  · rcases Nat.lt_or_ge c n with hc | hc
    · exact absurd ⟨hr, hc⟩ h
    · have hrb : r < v.length := by have := hv.1; omega
      rw [List.getElem?_eq_getElem hrb]
      have hrow : v[r].length = n := hv.2 _ (List.getElem_mem hrb)
      simp [List.getElem?_eq_none (by omega : v[r].length ≤ c)]
  · rw [List.getElem?_eq_none (by have := hv.1; omega : v.length ≤ r)]
    rfl

/-- Reading after `setV` at an in-bounds target. -/
lemma getV_setV {v : List (List Bool)} {n : Nat} (hv : WellSized v n)
    {r c : Nat} (hr : r < n) (hc : c < n) (r' c' : Nat) :
    getV (setV v r c) r' c' =
      if r' = r ∧ c' = c then true else getV v r' c' := by
  have hrb : r < v.length := by have := hv.1; omega
  have hrowlen : v[r].length = n := hv.2 _ (List.getElem_mem hrb)
  unfold getV setV
  simp only [List.get?_eq_getElem?, List.getElem?_set]
  by_cases hrr : r = r'
  · subst hrr
    simp only [if_pos rfl, if_pos hrb]
    rw [List.getElem?_eq_getElem hrb]
    simp only [Option.getD_some, Option.some_bind, List.getElem?_set]
    by_cases hcc : c = c'
    · subst hcc
      simp [show c < v[r].length from by omega]
    · simp [List.getElem?_set, hcc, Ne.symm hcc]
  · simp [hrr, Ne.symm hrr]

lemma mem_addColor {s : List Nat} {x c : Nat} :
    x ∈ addColor s c ↔ x ∈ s ∨ x = c := by
  unfold addColor
  split_ifs with h
  · constructor
    · exact Or.inl
    · rintro (hx | rfl)
      · exact hx
      · exact h
  · simp

lemma addColor_nodup {s : List Nat} (h : s.Nodup) (c : Nat) :
    (addColor s c).Nodup := by
  unfold addColor
  split_ifs with hc
  · exact h
  · simpa [List.nodup_append] using ⟨h, hc⟩

lemma addColor_self_mem (s : List Nat) (c : Nat) : c ∈ addColor s c := by
  rw [mem_addColor]; exact Or.inr rfl

/-- The number of unvisited empty in-bounds cells: the BFS progress measure. -/
def unvisitedCount (b : Board) (n : Nat) (v : List (List Bool)) : Nat :=
  ((Finset.range n ×ˢ Finset.range n).filter
    (fun p => cell b p.1 p.2 = EMPTY ∧ getV v p.1 p.2 = false)).card

/-- Marking an unvisited empty in-bounds cell decreases the measure by one. -/
lemma unvisitedCount_setV {b : Board} {n : Nat} {v : List (List Bool)}
    (hv : WellSized v n) {r c : Nat} (hr : r < n) (hc : c < n)
    (hemp : cell b r c = EMPTY) (hunv : getV v r c = false) :
    unvisitedCount b n (setV v r c) = unvisitedCount b n v - 1
    ∧ 0 < unvisitedCount b n v := by
  have hmem : ((r, c) : Pos) ∈ (Finset.range n ×ˢ Finset.range n).filter
      (fun p => cell b p.1 p.2 = EMPTY ∧ getV v p.1 p.2 = false) := by
    simp [Finset.mem_filter, Finset.mem_product, hr, hc, hemp, hunv]
  constructor
  · unfold unvisitedCount
    have hset : (Finset.range n ×ˢ Finset.range n).filter
        (fun p => cell b p.1 p.2 = EMPTY ∧ getV (setV v r c) p.1 p.2 = false)
      = ((Finset.range n ×ˢ Finset.range n).filter
        (fun p => cell b p.1 p.2 = EMPTY ∧ getV v p.1 p.2 = false)).erase (r, c) := by
      ext q
      simp only [Finset.mem_filter, Finset.mem_erase, Finset.mem_product,
        Finset.mem_range]
      rw [getV_setV hv hr hc q.1 q.2]
      constructor
      · rintro ⟨⟨h1, h2⟩, h3, h4⟩
        split_ifs at h4 with he
        refine ⟨?_, ⟨h1, h2⟩, h3, h4⟩
        rintro rfl
        exact he ⟨rfl, rfl⟩
      · rintro ⟨hne, ⟨h1, h2⟩, h3, h4⟩
        refine ⟨⟨h1, h2⟩, h3, ?_⟩
        rw [if_neg]
        · exact h4
        · rintro ⟨ha, hb2⟩
          rcases q with ⟨q1, q2⟩
          simp only at ha hb2
          subst ha; subst hb2
          exact hne rfl
    rw [hset, Finset.card_erase_of_mem hmem]
  · exact Finset.card_pos.mpr ⟨(r, c), hmem⟩

/-- One push step of the territory flood fill, as found in `ffLoop`. -/
lemma mem_ffPushFold (n : Nat) (V' : List (List Bool)) (r c : Nat) :
    ∀ (ds : List (Int × Int)) (q : List Pos) (x : Pos),
      x ∈ ds.foldl (fun q d =>
        let ar : Int := (r : Int) + d.1
        let ac : Int := (c : Int) + d.2
        if inBoundsI n ar ac then
          let nr := ar.toNat
          let nc := ac.toNat
          if ¬ getV V' nr nc then q ++ [(nr, nc)] else q
        else q) q ↔
      x ∈ q ∨ ∃ d ∈ ds,
        inBoundsI n ((r : Int) + d.1) ((c : Int) + d.2) ∧
        ¬ getV V' ((r : Int) + d.1).toNat ((c : Int) + d.2).toNat = true ∧
        x = (((r : Int) + d.1).toNat, ((c : Int) + d.2).toNat) := by
  intro ds
  induction ds with
  | nil => intro q x; simp
  | cons d ds ih =>
    intro q x
    rw [List.foldl_cons, ih]
    dsimp only
    constructor
    · rintro (hx | ⟨d', hd', hrest⟩)
      · -- x came through the first step
        split_ifs at hx with h1 h2
        · exact Or.inl hx
        · rcases List.mem_append.mp hx with hx | hx
          · exact Or.inl hx
          · simp only [List.mem_singleton] at hx
            exact Or.inr ⟨d, List.mem_cons_self d ds, h1, h2, hx⟩
        · exact Or.inl hx
      · exact Or.inr ⟨d', List.mem_cons_of_mem d hd', hrest⟩
    · rintro (hx | ⟨d', hd', hg1, hg2, hx⟩)
      · left
        split_ifs <;> simp [hx]
      · rcases List.mem_cons.mp hd' with rfl | hd'
        · left
          rw [if_pos hg1, if_pos hg2]
          simp [hx]
        · exact Or.inr ⟨d', hd', hg1, hg2, hx⟩

/-- An in-bounds direction step from `(r, c)` lands on an in-bounds cell
orthogonally adjacent to `(r, c)`. -/
lemma push_target_spec {n r c : Nat} {d : Int × Int} (hd : d ∈ directions)
    (hg : inBoundsI n ((r : Int) + d.1) ((c : Int) + d.2)) :
    Adjacent (r, c) (((r : Int) + d.1).toNat, ((c : Int) + d.2).toNat)
    ∧ InBounds n (((r : Int) + d.1).toNat, ((c : Int) + d.2).toNat) := by
  obtain ⟨hg1, hg2, hg3, hg4⟩ := hg
  simp only [directions, List.mem_cons, List.not_mem_nil, or_false] at hd
  rcases hd with rfl | rfl | rfl | rfl <;>
    simp only [Adjacent, InBounds] <;> omega

/-- Conversely, every in-bounds orthogonal neighbour of `(r, c)` is an
in-bounds direction step. -/
lemma adjacent_to_dir {n : Nat} {r c : Nat} {x : Pos} (ha : Adjacent (r, c) x)
    (hrc : InBounds n (r, c)) (hx : InBounds n x) :
    ∃ d ∈ directions, inBoundsI n ((r : Int) + d.1) ((c : Int) + d.2) ∧
      x = (((r : Int) + d.1).toNat, ((c : Int) + d.2).toNat) := by
  rcases x with ⟨x1, x2⟩
  obtain ⟨hx1, hx2⟩ := hx
  obtain ⟨hr, hc⟩ := hrc
  rcases ha with ⟨h1, h2 | h2⟩ | ⟨h1, h2 | h2⟩
  · exact ⟨(0, 1), by simp [directions],
      by simp only [inBoundsI]; omega,
      by simp only [Prod.mk.injEq]; omega⟩
  · exact ⟨(0, -1), by simp [directions],
      by simp only [inBoundsI]; omega,
      by simp only [Prod.mk.injEq]; omega⟩
  · exact ⟨(1, 0), by simp [directions],
      by simp only [inBoundsI]; omega,
      by simp only [Prod.mk.injEq]; omega⟩
  · exact ⟨(-1, 0), by simp [directions],
      by simp only [inBoundsI]; omega,
      by simp only [Prod.mk.injEq]; omega⟩

/-- The pushes of one visit add at most one cell per direction. -/
lemma ffPushFold_length (n : Nat) (V' : List (List Bool)) (r c : Nat) :
    ∀ (ds : List (Int × Int)) (q : List Pos),
      (ds.foldl (fun q d =>
        let ar : Int := (r : Int) + d.1
        let ac : Int := (c : Int) + d.2
        if inBoundsI n ar ac then
          let nr := ar.toNat
          let nc := ac.toNat
          if ¬ getV V' nr nc then q ++ [(nr, nc)] else q
        else q) q).length ≤ q.length + ds.length := by
  intro ds
  induction ds with
  | nil => intro q; simp
  | cons d ds ih =>
    intro q
    rw [List.foldl_cons]
    dsimp only
    refine le_trans (ih _) ?_
    split_ifs <;> simp <;> omega

/-- Ambient assumptions of a territory flood fill: a well-sized board, a start
cell that is empty and in bounds, and a pre-call visited matrix that marks only
empty in-bounds cells, none of them in the start cell's region. -/
structure FFCtx (b : Board) (n : Nat) (s₀ : Pos) (V₀ : List (List Bool)) :
    Prop where
  hb : WellSized b n
  hV₀ : ∀ p : Pos, getV V₀ p.1 p.2 = true → InBounds n p ∧ EmptyAt b p
  hdisj : ∀ p : Pos, getV V₀ p.1 p.2 = true → ¬ Region b n s₀ p
  hs₀ : InBounds n s₀ ∧ EmptyAt b s₀

/-- Invariant of the territory flood-fill loop (queue `Q`, territory so far
`T`, border colours so far `C`, visited matrix `V`). -/
structure FFInv (b : Board) (n : Nat) (s₀ : Pos) (V₀ : List (List Bool))
    (Q T : List Pos) (C : List Nat) (V : List (List Bool)) : Prop where
  vDims : WellSized V n
  vChar : ∀ p : Pos, getV V p.1 p.2 = true ↔ (getV V₀ p.1 p.2 = true ∨ p ∈ T)
  qInB : ∀ p ∈ Q, InBounds n p
  qEmptyR : ∀ p ∈ Q, EmptyAt b p → Region b n s₀ p
  qStoneAdj : ∀ p ∈ Q, ¬ EmptyAt b p → ∃ t, Region b n s₀ t ∧ Adjacent t p
  tR : ∀ p ∈ T, Region b n s₀ p
  tNodup : T.Nodup
  cChar : ∀ col ∈ C, ∃ t u, Region b n s₀ t ∧ Adjacent t u ∧ InBounds n u ∧
      ¬ EmptyAt b u ∧ cell b u.1 u.2 = col
  cNodup : C.Nodup
  closure : ∀ t ∈ T, ∀ u : Pos, Adjacent t u → InBounds n u →
      (EmptyAt b u → getV V u.1 u.2 = true ∨ u ∈ Q) ∧
      (¬ EmptyAt b u → cell b u.1 u.2 ∈ C ∨ u ∈ Q)
  seed : s₀ ∈ T ∨ s₀ ∈ Q

/-- With the ambient assumptions, any visited cell is in bounds and empty. -/
lemma FFInv.visited_empty {b : Board} {n : Nat} {s₀ : Pos}
    {V₀ : List (List Bool)} {Q T : List Pos} {C : List Nat}
    {V : List (List Bool)} (ctx : FFCtx b n s₀ V₀)
    (inv : FFInv b n s₀ V₀ Q T C V) :
    ∀ p : Pos, getV V p.1 p.2 = true → InBounds n p ∧ EmptyAt b p := by
  intro p hp
  rcases (inv.vChar p).mp hp with h | h
  · exact ctx.hV₀ p h
  · exact region_inbounds_empty ctx.hs₀ (inv.tR p h)

/-- The flood-fill loop, run with enough fuel, terminates with an empty queue
while maintaining the invariant. -/
lemma ffLoop_spec (b : Board) (n : Nat) (s₀ : Pos) (V₀ : List (List Bool))
    (ctx : FFCtx b n s₀ V₀) :
    ∀ (fuel : Nat) (Q T : List Pos) (C : List Nat) (V : List (List Bool)),
      FFInv b n s₀ V₀ Q T C V →
      5 * unvisitedCount b n V + Q.length ≤ fuel →
      FFInv b n s₀ V₀ [] (ffLoop b n fuel Q V T C).1
        (ffLoop b n fuel Q V T C).2.1 (ffLoop b n fuel Q V T C).2.2 := by
  intro fuel
  induction fuel with
  | zero =>
    intro Q T C V hinv hfuel
    have hQ : Q = [] := by
      cases Q with
      | nil => rfl
      | cons q qs => simp at hfuel
    subst hQ
    exact hinv
  | succ fuel ih =>
    intro Q T C V hinv hfuel
    match Q with
    | [] => exact hinv
    | (r, c) :: rest =>
      have hrcQ : ((r, c) : Pos) ∈ (r, c) :: rest := List.mem_cons_self _ _
      by_cases hvis : getV V r c = true
      · -- the popped cell is already visited: discard it
        have heq : ffLoop b n (fuel + 1) ((r, c) :: rest) V T C =
            ffLoop b n fuel rest V T C := by
          simp [ffLoop, hvis]
        rw [heq]
        have hinv' : FFInv b n s₀ V₀ rest T C V :=
          { vDims := hinv.vDims
            vChar := hinv.vChar
            qInB := fun p hp => hinv.qInB p (List.mem_cons_of_mem _ hp)
            qEmptyR := fun p hp => hinv.qEmptyR p (List.mem_cons_of_mem _ hp)
            qStoneAdj := fun p hp =>
              hinv.qStoneAdj p (List.mem_cons_of_mem _ hp)
            tR := hinv.tR
            tNodup := hinv.tNodup
            cChar := hinv.cChar
            cNodup := hinv.cNodup
            closure := by
              intro t ht u hadj hub
              obtain ⟨h1, h2⟩ := hinv.closure t ht u hadj hub
              constructor
              · intro hue
                rcases h1 hue with hv | hq
                · exact Or.inl hv
                · rcases List.mem_cons.mp hq with rfl | hq
                  · exact Or.inl hvis
                  · exact Or.inr hq
              · intro hus
                rcases h2 hus with hv | hq
                · exact Or.inl hv
                · rcases List.mem_cons.mp hq with rfl | hq
                  · exact absurd (hinv.visited_empty ctx (r, c) hvis).2 hus
                  · exact Or.inr hq
            seed := by
              rcases hinv.seed with h | h
              · exact Or.inl h
              · rcases List.mem_cons.mp h with rfl | h
                · left
                  rcases (hinv.vChar (r, c)).mp hvis with h0 | h0
                  · exact absurd (region_refl b n (r, c)) (ctx.hdisj (r, c) h0)
                  · exact h0
                · exact Or.inr h }
        exact ih rest T C V hinv' (by simp at hfuel; omega)
      · by_cases hemp : cell b r c = EMPTY
        · -- visit the popped empty cell and push its unvisited neighbours
          have hrcB : InBounds n ((r, c) : Pos) := hinv.qInB _ hrcQ
          have hrcR : Region b n s₀ (r, c) := hinv.qEmptyR _ hrcQ hemp
          have hV' := setV_wellSized hinv.vDims r c
          have hget' := getV_setV hinv.vDims hrcB.1 hrcB.2
          have hnotT : ((r, c) : Pos) ∉ T := fun h =>
            hvis ((hinv.vChar (r, c)).mpr (Or.inr h))
          have hmono : ∀ p : Pos, getV V p.1 p.2 = true →
              getV (setV V r c) p.1 p.2 = true := by
            intro p hp
            rw [hget' p.1 p.2]
            split_ifs with h
            · rfl
            · exact hp
          have hgetrc : getV (setV V r c) r c = true := by
            rw [hget' r c, if_pos ⟨rfl, rfl⟩]
          have hVemp' : ∀ p : Pos, getV (setV V r c) p.1 p.2 = true →
              InBounds n p ∧ EmptyAt b p := by
            intro p hp
            rw [hget' p.1 p.2] at hp
            split_ifs at hp with h
            · rcases p with ⟨p1, p2⟩
              simp only at h
              rw [h.1, h.2]
              exact ⟨hrcB, hemp⟩
            · exact hinv.visited_empty ctx p hp
          have heq : ffLoop b n (fuel + 1) ((r, c) :: rest) V T C =
              ffLoop b n fuel
                (directions.foldl (fun q d =>
                  let ar : Int := (r : Int) + d.1
                  let ac : Int := (c : Int) + d.2
                  if inBoundsI n ar ac then
                    let nr := ar.toNat
                    let nc := ac.toNat
                    if ¬ getV (setV V r c) nr nc then q ++ [(nr, nc)] else q
                  else q) rest)
                (setV V r c) (T ++ [(r, c)]) C := by
            simp [ffLoop, hvis, hemp]
          rw [heq]
          have hqueue := mem_ffPushFold n (setV V r c) r c directions rest
          have hinv' : FFInv b n s₀ V₀
              (directions.foldl (fun q d =>
                let ar : Int := (r : Int) + d.1
                let ac : Int := (c : Int) + d.2
                if inBoundsI n ar ac then
                  let nr := ar.toNat
                  let nc := ac.toNat
                  if ¬ getV (setV V r c) nr nc then q ++ [(nr, nc)] else q
                else q) rest)
              (T ++ [(r, c)]) C (setV V r c) :=
            { vDims := hV'
              vChar := by
                intro p
                rw [hget' p.1 p.2]
                by_cases hp : p = ((r, c) : Pos)
                · subst hp
                  simp
                · rw [if_neg (by
                    rcases p with ⟨p1, p2⟩
                    rintro ⟨h1, h2⟩
                    simp only at h1 h2
                    exact hp (by rw [h1, h2]))]
                  rw [hinv.vChar p]
                  simp only [List.mem_append, List.mem_singleton]
                  constructor
                  · rintro (h | h)
                    · exact Or.inl h
                    · exact Or.inr (Or.inl h)
                  · rintro (h | h | h)
                    · exact Or.inl h
                    · exact Or.inr h
                    · exact absurd h hp
              qInB := by
                intro p hp
                rcases (hqueue p).mp hp with h | ⟨d, hd, hg, hgv, rfl⟩
                · exact hinv.qInB p (List.mem_cons_of_mem _ h)
                · exact (push_target_spec hd hg).2
              qEmptyR := by
                intro p hp hpe
                rcases (hqueue p).mp hp with h | ⟨d, hd, hg, hgv, rfl⟩
                · exact hinv.qEmptyR p (List.mem_cons_of_mem _ h) hpe
                · exact region_step hrcR (push_target_spec hd hg).2 hpe
                    (push_target_spec hd hg).1
              qStoneAdj := by
                intro p hp hps
                rcases (hqueue p).mp hp with h | ⟨d, hd, hg, hgv, rfl⟩
                · exact hinv.qStoneAdj p (List.mem_cons_of_mem _ h) hps
                · exact ⟨(r, c), hrcR, (push_target_spec hd hg).1⟩
              tR := by
                intro p hp
                rcases List.mem_append.mp hp with h | h
                · exact hinv.tR p h
                · simp only [List.mem_singleton] at h
                  subst h
                  exact hrcR
              tNodup := by
                simp only [List.nodup_append, List.nodup_singleton]
                exact ⟨hinv.tNodup, trivial, by
                  intro a ha hb2
                  simp only [List.mem_singleton] at hb2
                  subst hb2
                  exact hnotT ha⟩
              cChar := hinv.cChar
              cNodup := hinv.cNodup
              closure := by
                intro t ht u hadj hub
                rcases List.mem_append.mp ht with htT | htNew
                · obtain ⟨h1, h2⟩ := hinv.closure t htT u hadj hub
                  constructor
                  · intro hue
                    rcases h1 hue with hv | hq
                    · exact Or.inl (hmono u hv)
                    · rcases List.mem_cons.mp hq with rfl | hq
                      · exact Or.inl hgetrc
                      · exact Or.inr ((hqueue u).mpr (Or.inl hq))
                  · intro hus
                    rcases h2 hus with hv | hq
                    · exact Or.inl hv
                    · rcases List.mem_cons.mp hq with rfl | hq
                      · exact absurd hemp hus
                      · exact Or.inr ((hqueue u).mpr (Or.inl hq))
                · simp only [List.mem_singleton] at htNew
                  subst htNew
                  constructor
                  · intro hue
                    by_cases hu : getV (setV V r c) u.1 u.2 = true
                    · exact Or.inl hu
                    · right
                      obtain ⟨d, hd, hg, hx⟩ := adjacent_to_dir hadj hrcB hub
                      refine (hqueue u).mpr (Or.inr ⟨d, hd, hg, ?_, hx⟩)
                      have hx1 : u.1 = ((r : Int) + d.1).toNat := by rw [hx]
                      have hx2 : u.2 = ((c : Int) + d.2).toNat := by rw [hx]
                      rw [← hx1, ← hx2]
                      exact hu
                  · intro hus
                    right
                    have hu : ¬ getV (setV V r c) u.1 u.2 = true := by
                      intro hu
                      exact hus (hVemp' u hu).2
                    obtain ⟨d, hd, hg, hx⟩ := adjacent_to_dir hadj hrcB hub
                    refine (hqueue u).mpr (Or.inr ⟨d, hd, hg, ?_, hx⟩)
                    have hx1 : u.1 = ((r : Int) + d.1).toNat := by rw [hx]
                    have hx2 : u.2 = ((c : Int) + d.2).toNat := by rw [hx]
                    rw [← hx1, ← hx2]
                    exact hu
              seed := by
                rcases hinv.seed with h | h
                · exact Or.inl (List.mem_append.mpr (Or.inl h))
                · rcases List.mem_cons.mp h with heq' | h
                  · exact Or.inl (List.mem_append.mpr (Or.inr (by simp [heq'])))
                  · exact Or.inr ((hqueue s₀).mpr (Or.inl h)) }
          have hunv : getV V r c = false := by simpa using hvis
          obtain ⟨hdec, hpos⟩ :=
            unvisitedCount_setV hinv.vDims hrcB.1 hrcB.2 hemp hunv
          have hlen := ffPushFold_length n (setV V r c) r c directions rest
          have hdir4 : directions.length = 4 := rfl
          refine ih _ _ _ _ hinv' ?_
          rw [hdec]
          simp only [List.length_cons] at hfuel
          omega
        · -- the popped cell holds a stone: record its colour
          have heq : ffLoop b n (fuel + 1) ((r, c) :: rest) V T C =
              ffLoop b n fuel rest V T (addColor C (cell b r c)) := by
            simp [ffLoop, hvis, hemp]
          rw [heq]
          have hrcB : InBounds n ((r, c) : Pos) := hinv.qInB _ hrcQ
          obtain ⟨t0, ht0R, ht0A⟩ := hinv.qStoneAdj _ hrcQ hemp
          have hinv' : FFInv b n s₀ V₀ rest T (addColor C (cell b r c)) V :=
            { vDims := hinv.vDims
              vChar := hinv.vChar
              qInB := fun p hp => hinv.qInB p (List.mem_cons_of_mem _ hp)
              qEmptyR := fun p hp => hinv.qEmptyR p (List.mem_cons_of_mem _ hp)
              qStoneAdj := fun p hp =>
                hinv.qStoneAdj p (List.mem_cons_of_mem _ hp)
              tR := hinv.tR
              tNodup := hinv.tNodup
              cChar := by
                intro col hcol
                rcases mem_addColor.mp hcol with h | rfl
                · exact hinv.cChar col h
                · exact ⟨t0, (r, c), ht0R, ht0A, hrcB, hemp, rfl⟩
              cNodup := addColor_nodup hinv.cNodup _
              closure := by
                intro t ht u hadj hub
                obtain ⟨h1, h2⟩ := hinv.closure t ht u hadj hub
                constructor
                · intro hue
                  rcases h1 hue with hv | hq
                  · exact Or.inl hv
                  · rcases List.mem_cons.mp hq with rfl | hq
                    · exact absurd hue hemp
                    · exact Or.inr hq
                · intro hus
                  rcases h2 hus with hv | hq
                  · exact Or.inl (mem_addColor.mpr (Or.inl hv))
                  · rcases List.mem_cons.mp hq with rfl | hq
                    · exact Or.inl (addColor_self_mem C _)
                    · exact Or.inr hq
              seed := by
                rcases hinv.seed with h | h
                · exact Or.inl h
                · rcases List.mem_cons.mp h with rfl | h
                  · exact absurd ctx.hs₀.2 hemp
                  · exact Or.inr h }
          exact ih rest T _ V hinv' (by simp at hfuel ⊢; omega)

/-- A duplicate-free list whose members all equal one of its elements is that
singleton. -/
lemma nodup_eq_singleton {l : List Nat} {a : Nat} (hn : l.Nodup) (ha : a ∈ l)
    (hall : ∀ y ∈ l, y = a) : l = [a] := by
  cases l with
  | nil => cases ha
  | cons x xs =>
    have hx : x = a := hall x (List.mem_cons_self x xs)
    subst hx
    cases xs with
    | nil => rfl
    | cons y ys =>
      have hy : y = x := hall y (by simp)
      subst hy
      simp at hn

/-- Specification of `floodFill` started on an unvisited empty in-bounds cell:
it returns exactly that cell's maximal connected empty region (without
duplicates), marks exactly that region in the shared visited matrix, and
computes the owner from the region's bordering colours: a side owns the region
iff its colour is the unique bordering colour. -/
lemma floodFill_spec (b : Board) (n : Nat) (r c : Nat)
    (V₀ : List (List Bool)) (hb : WellSized b n)
    (hcells : ∀ p : Pos, InBounds n p →
      cell b p.1 p.2 = EMPTY ∨ cell b p.1 p.2 = BLACK ∨ cell b p.1 p.2 = WHITE)
    (hV₀dims : WellSized V₀ n)
    (hV₀ : ∀ p : Pos, getV V₀ p.1 p.2 = true → InBounds n p ∧ EmptyAt b p)
    (hdisj : ∀ p : Pos, getV V₀ p.1 p.2 = true → ¬ Region b n (r, c) p)
    (hrc : InBounds n ((r, c) : Pos)) (hemp : EmptyAt b (r, c))
    (hunvis : getV V₀ r c = false) :
    (∀ q : Pos, q ∈ (floodFill b n r c V₀).1 ↔ Region b n (r, c) q)
  ∧ (floodFill b n r c V₀).1.Nodup
  ∧ (∀ p : Pos, getV (floodFill b n r c V₀).2.2 p.1 p.2 = true ↔
      (getV V₀ p.1 p.2 = true ∨ Region b n (r, c) p))
  ∧ WellSized (floodFill b n r c V₀).2.2 n
  ∧ ((floodFill b n r c V₀).2.1 = BLACK ↔
      (RegionBorders b n (r, c) BLACK ∧ ¬ RegionBorders b n (r, c) WHITE))
  ∧ ((floodFill b n r c V₀).2.1 = WHITE ↔
      (RegionBorders b n (r, c) WHITE ∧ ¬ RegionBorders b n (r, c) BLACK)) := by
  have ctx : FFCtx b n (r, c) V₀ := ⟨hb, hV₀, hdisj, ⟨hrc, hemp⟩⟩
  have hinv0 : FFInv b n (r, c) V₀ [(r, c)] [] [] V₀ :=
    { vDims := hV₀dims
      vChar := by intro p; simp
      qInB := by
        intro p hp
        simp only [List.mem_singleton] at hp
        subst hp; exact hrc
      qEmptyR := by
        intro p hp _
        simp only [List.mem_singleton] at hp
        subst hp; exact region_refl b n (r, c)
      qStoneAdj := by
        intro p hp hps
        simp only [List.mem_singleton] at hp
        subst hp; exact absurd hemp hps
      tR := by intro p hp; cases hp
      tNodup := List.nodup_nil
      cChar := by intro col hcol; cases hcol
      cNodup := List.nodup_nil
      closure := by intro t ht; cases ht
      seed := Or.inr (List.mem_singleton.mpr rfl) }
  have hU : unvisitedCount b n V₀ ≤ n * n := by
    calc unvisitedCount b n V₀
        ≤ (Finset.range n ×ˢ Finset.range n).card := Finset.card_filter_le _ _
      _ = n * n := by simp
  have hfin := ffLoop_spec b n (r, c) V₀ ctx (5 * n * n + 5) [(r, c)] [] [] V₀
    hinv0 (by
      simp only [List.length_singleton]
      have h5 : 5 * n * n = 5 * (n * n) := by ring
      omega)
  set res := ffLoop b n (5 * n * n + 5) [(r, c)] V₀ [] [] with hres
  -- the collected territory is exactly the region
  have hTiff : ∀ q : Pos, q ∈ res.1 ↔ Region b n (r, c) q := by
    intro q
    constructor
    · exact hfin.tR q
    · intro hreg
      induction hreg with
      | refl =>
        rcases hfin.seed with h | h
        · exact h
        · cases h
      | tail hpre hstep ih =>
        rename_i x y
        obtain ⟨hyB, hyE, hxy⟩ := hstep
        rcases (hfin.closure x ih y hxy hyB).1 hyE with hv | hq
        · rcases (hfin.vChar y).mp hv with h0 | h0
          · exact absurd (Relation.ReflTransGen.tail hpre ⟨hyB, hyE, hxy⟩)
              (hdisj y h0)
          · exact h0
        · cases hq
  -- the collected colours are exactly the bordering colours
  have hCiff : ∀ col, col ∈ res.2.1 ↔ RegionBorders b n (r, c) col := by
    intro col
    constructor
    · intro h
      obtain ⟨t, u, ht, hadj, hub, hus, hcol⟩ := hfin.cChar col h
      exact ⟨t, u, ht, hadj, hub, hus, hcol⟩
    · rintro ⟨q, u, hq, hadj, hub, hus, hcol⟩
      rcases (hfin.closure q ((hTiff q).mpr hq) u hadj hub).2 hus with hC | h0
      · rw [← hcol]; exact hC
      · cases h0
  -- reduce `floodFill` to the loop's result
  have hcellv : cell b r c = EMPTY := hemp
  have hfloodeq : floodFill b n r c V₀ =
      (res.1, (if res.2.1.length = 1 then res.2.1.headD EMPTY else EMPTY),
        res.2.2) := by
    rw [floodFill, if_neg]
    push_neg
    exact ⟨by simp [hunvis], by simpa using hcellv⟩
  rw [hfloodeq]
  have hownerBW : ∀ col, col = BLACK ∨ col = WHITE →
      ((if res.2.1.length = 1 then res.2.1.headD EMPTY else EMPTY) = col ↔
        res.2.1 = [col]) := by
    intro col hcol
    split_ifs with hlen
    · obtain ⟨x, hx⟩ := List.length_eq_one.mp hlen
      rw [hx]
      simp
    · constructor
      · intro h
        rcases hcol with rfl | rfl <;> simp [EMPTY, BLACK, WHITE] at h
      · intro h
        rw [h] at hlen
        simp at hlen

  have hsingle : ∀ colA colB : Nat,
      (colA = BLACK ∧ colB = WHITE) ∨ (colA = WHITE ∧ colB = BLACK) →
      (res.2.1 = [colA] ↔
        (RegionBorders b n (r, c) colA ∧ ¬ RegionBorders b n (r, c) colB)) := by
    intro colA colB hAB
    constructor
    · intro h
      constructor
      · exact (hCiff colA).mp (by rw [h]; simp)
      · intro hw
        have := (hCiff colB).mpr hw
        rw [h] at this
        simp only [List.mem_singleton] at this
        rcases hAB with ⟨rfl, rfl⟩ | ⟨rfl, rfl⟩ <;> simp [BLACK, WHITE] at this
    · rintro ⟨hA, hnB⟩
      refine nodup_eq_singleton hfin.cNodup ((hCiff colA).mpr hA) ?_
      intro y hy
      obtain ⟨q, u, hq, hadj, hub, hus, hcol⟩ := (hCiff y).mp hy
      rcases hcells u hub with h0 | h0 | h0
      · exact absurd h0 hus
      · -- the bordering stone is black
        rcases hAB with ⟨rfl, rfl⟩ | ⟨rfl, rfl⟩
        · rw [← hcol]; exact h0
        · exact absurd ⟨q, u, hq, hadj, hub, hus, h0⟩ hnB
      · -- the bordering stone is white
        rcases hAB with ⟨rfl, rfl⟩ | ⟨rfl, rfl⟩
        · exact absurd ⟨q, u, hq, hadj, hub, hus, h0⟩ hnB
        · rw [← hcol]; exact h0
  refine ⟨hTiff, hfin.tNodup, ?_, hfin.vDims, ?_, ?_⟩
  · intro p
    rw [hfin.vChar p]
    constructor
    · rintro (h | h)
      · exact Or.inl h
      · exact Or.inr ((hTiff p).mp h)
    · rintro (h | h)
      · exact Or.inl h
      · exact Or.inr ((hTiff p).mpr h)
  · rw [hownerBW BLACK (Or.inl rfl)]
    exact hsingle BLACK WHITE (Or.inl ⟨rfl, rfl⟩)
  · rw [hownerBW WHITE (Or.inr rfl)]
    exact hsingle WHITE BLACK (Or.inr ⟨rfl, rfl⟩)

/-- A row-major nested fold over a square range is a fold over the row-major
list of coordinate pairs. -/
lemma nested_foldl_pairs {α : Type _} (n : Nat) (g : α → Nat → Nat → α) :
    ∀ (rs : List Nat) (acc : α),
      rs.foldl (fun acc row =>
        (List.range n).foldl (fun acc col => g acc row col) acc) acc
      = (rs.flatMap (fun row =>
          (List.range n).map (fun col => (row, col)))).foldl
          (fun acc p => g acc p.1 p.2) acc := by
  intro rs
  induction rs with
  | nil => intro acc; rfl
  | cons r rs ih =>
    intro acc
    simp only [List.foldl_cons, List.flatMap_cons, List.foldl_append]
    rw [ih, List.foldl_map]

lemma mkMatrix_wellSized (n : Nat) (x : α) : WellSized (mkMatrix n x) n := by
  constructor
  · simp [mkMatrix]
  · intro row hrow
    rw [List.eq_of_mem_replicate hrow]
    simp

/-- Any set of in-bounds cells is finite. -/
lemma finite_of_inbounds {n : Nat} {X : Set Pos} (h : ∀ p ∈ X, InBounds n p) :
    X.Finite := by
  apply Set.Finite.subset
    (((Finset.range n ×ˢ Finset.range n) : Finset Pos).finite_toSet)
  intro p hp
  have hb := h p hp
  simp only [Finset.coe_product, Finset.coe_range, Set.mem_prod,
    Set.mem_Iio]
  exact ⟨hb.1, hb.2⟩

/-- Processing a list of cells through `scoreCell` maintains the score-loop
invariant: the visited matrix marks a region-closed set of empty in-bounds
cells; the counters count the marked cells whose region borders only the
corresponding colour; and every processed empty cell ends up marked. -/
lemma scoreFold_spec (b : Board) (n : Nat) (hb : WellSized b n)
    (hcells : ∀ p : Pos, InBounds n p →
      cell b p.1 p.2 = EMPTY ∨ cell b p.1 p.2 = BLACK ∨ cell b p.1 p.2 = WHITE) :
    ∀ (ps : List Pos) (V : List (List Bool)) (bt wt : Nat) (S : Set Pos),
      WellSized V n →
      (∀ p : Pos, getV V p.1 p.2 = true ↔ p ∈ S) →
      (∀ p ∈ S, InBounds n p ∧ EmptyAt b p) →
      (∀ p ∈ S, ∀ q, Region b n p q → q ∈ S) →
      bt = Set.ncard {x | x ∈ S ∧ RegionBorders b n x BLACK ∧
        ¬ RegionBorders b n x WHITE} →
      wt = Set.ncard {x | x ∈ S ∧ RegionBorders b n x WHITE ∧
        ¬ RegionBorders b n x BLACK} →
      ∃ S' : Set Pos, S ⊆ S'
        ∧ (∀ p : Pos,
            getV (ps.foldl (fun acc p => scoreCell b n acc p.1 p.2)
              (V, bt, wt)).1 p.1 p.2 = true ↔ p ∈ S')
        ∧ (∀ p ∈ S', InBounds n p ∧ EmptyAt b p)
        ∧ (∀ p ∈ S', ∀ q, Region b n p q → q ∈ S')
        ∧ (ps.foldl (fun acc p => scoreCell b n acc p.1 p.2) (V, bt, wt)).2.1 =
            Set.ncard {x | x ∈ S' ∧ RegionBorders b n x BLACK ∧
              ¬ RegionBorders b n x WHITE}
        ∧ (ps.foldl (fun acc p => scoreCell b n acc p.1 p.2) (V, bt, wt)).2.2 =
            Set.ncard {x | x ∈ S' ∧ RegionBorders b n x WHITE ∧
              ¬ RegionBorders b n x BLACK}
        ∧ (∀ p ∈ ps, EmptyAt b p → p ∈ S') := by
  intro ps
  induction ps with
  | nil =>
    intro V bt wt S hVd hchar hSin hScl hbt hwt
    exact ⟨S, subset_rfl, hchar, hSin, hScl, hbt, hwt, by simp⟩
  | cons p ps ih =>
    classical
    intro V bt wt S hVd hchar hSin hScl hbt hwt
    rcases p with ⟨pr, pc⟩
    rw [List.foldl_cons]
    by_cases hcond : ¬ getV V pr pc = true ∧ cell b pr pc = EMPTY
    · -- an unvisited empty cell: flood-fill its region
      obtain ⟨hunv, hemp'⟩ := hcond
      have hemp : EmptyAt b (pr, pc) := hemp'
      have hinb : InBounds n ((pr, pc) : Pos) := inbounds_of_empty hb hemp
      have hpe : InBounds n ((pr, pc) : Pos) ∧ EmptyAt b (pr, pc) := ⟨hinb, hemp⟩
      have hdisj : ∀ q : Pos, getV V q.1 q.2 = true →
          ¬ Region b n (pr, pc) q := by
        intro q hq hreg
        have hpS : ((pr, pc) : Pos) ∈ S :=
          hScl q ((hchar q).mp hq) (pr, pc) (region_symm hpe hreg)
        exact hunv ((hchar (pr, pc)).mpr hpS)
      have hVemp : ∀ q : Pos, getV V q.1 q.2 = true →
          InBounds n q ∧ EmptyAt b q :=
        fun q hq => hSin q ((hchar q).mp hq)
      have hgf : getV V pr pc = false := by simpa using hunv
      obtain ⟨hT, hTnd, hVc, hVd', hoB, hoW⟩ :=
        floodFill_spec b n pr pc V hb hcells hVd hVemp hdisj hinb hemp hgf
      set R : Set Pos := {q | Region b n (pr, pc) q} with hR
      have hdisjSR : ∀ x : Pos, x ∈ S → x ∈ R → False := by
        intro x hxS hxR
        have hpS : ((pr, pc) : Pos) ∈ S :=
          hScl x hxS (pr, pc) (region_symm hpe hxR)
        exact hunv ((hchar (pr, pc)).mpr hpS)
      have hRncard : R.ncard = (floodFill b n pr pc V).1.length := by
        have hRfin : R = {x | x ∈ (floodFill b n pr pc V).1} := by
          ext q
          simp only [hR, Set.mem_setOf_eq]
          exact (hT q).symm
        rw [hRfin, ← List.coe_toFinset, Set.ncard_coe_Finset,
          List.toFinset_card_of_nodup hTnd]
      have hkey : ∀ colA colB : Nat,
          Set.ncard {x | x ∈ S ∪ R ∧ RegionBorders b n x colA ∧
            ¬ RegionBorders b n x colB}
          = Set.ncard {x | x ∈ S ∧ RegionBorders b n x colA ∧
              ¬ RegionBorders b n x colB}
            + (if RegionBorders b n (pr, pc) colA ∧
                  ¬ RegionBorders b n (pr, pc) colB
               then (floodFill b n pr pc V).1.length else 0) := by
        intro colA colB
        have hsplit : {x | x ∈ S ∪ R ∧ RegionBorders b n x colA ∧
            ¬ RegionBorders b n x colB}
            = {x | x ∈ S ∧ RegionBorders b n x colA ∧
                ¬ RegionBorders b n x colB}
              ∪ {x | x ∈ R ∧ RegionBorders b n x colA ∧
                ¬ RegionBorders b n x colB} := by
          ext x
          simp only [Set.mem_setOf_eq, Set.mem_union]
          tauto
        have hd : Disjoint
            {x | x ∈ S ∧ RegionBorders b n x colA ∧ ¬ RegionBorders b n x colB}
            {x | x ∈ R ∧ RegionBorders b n x colA ∧ ¬ RegionBorders b n x colB} :=
          Set.disjoint_left.mpr fun x hx1 hx2 => (hdisjSR x hx1.1 hx2.1).elim
        have hs1 : {x | x ∈ S ∧ RegionBorders b n x colA ∧
            ¬ RegionBorders b n x colB}.Finite :=
          finite_of_inbounds fun x hx => (hSin x hx.1).1
        have hs2 : {x | x ∈ R ∧ RegionBorders b n x colA ∧
            ¬ RegionBorders b n x colB}.Finite :=
          finite_of_inbounds fun x hx => (region_inbounds_empty hpe hx.1).1
        rw [hsplit, Set.ncard_union_eq hd hs1 hs2]
        congr 1
        split_ifs with hP
        · have hRall : {x | x ∈ R ∧ RegionBorders b n x colA ∧
              ¬ RegionBorders b n x colB} = R := by
            ext x
            simp only [Set.mem_setOf_eq]
            constructor
            · exact fun h => h.1
            · intro hx
              refine ⟨hx, (regionBorders_congr hpe hx).mpr hP.1, ?_⟩
              intro hc
              exact hP.2 ((regionBorders_congr hpe hx).mp hc)
          rw [hRall, hRncard]
        · have hRnone : {x | x ∈ R ∧ RegionBorders b n x colA ∧
              ¬ RegionBorders b n x colB} = ∅ := by
            ext x
            simp only [Set.mem_setOf_eq, Set.mem_empty_iff_false, iff_false,
              not_and]
            intro hx h1 h2
            exact hP ⟨(regionBorders_congr hpe hx).mp h1,
              fun hc => h2 ((regionBorders_congr hpe hx).mpr hc)⟩
          rw [hRnone]
          simp
      have hchar2 : ∀ x : Pos,
          getV (floodFill b n pr pc V).2.2 x.1 x.2 = true ↔ x ∈ S ∪ R := by
        intro x
        rw [hVc x]
        constructor
        · rintro (h | h)
          · exact Or.inl ((hchar x).mp h)
          · exact Or.inr h
        · rintro (h | h)
          · exact Or.inl ((hchar x).mpr h)
          · exact Or.inr h
      have hS2in : ∀ x ∈ S ∪ R, InBounds n x ∧ EmptyAt b x := by
        rintro x (hx | hx)
        · exact hSin x hx
        · exact region_inbounds_empty hpe hx
      have hS2cl : ∀ x ∈ S ∪ R, ∀ q, Region b n x q → q ∈ S ∪ R := by
        rintro x (hx | hx) q hq
        · exact Or.inl (hScl x hx q hq)
        · exact Or.inr (region_trans hx hq)
      have happ : scoreCell b n (V, bt, wt) pr pc =
          (if (floodFill b n pr pc V).2.1 = BLACK then
            ((floodFill b n pr pc V).2.2, bt + (floodFill b n pr pc V).1.length, wt)
          else if (floodFill b n pr pc V).2.1 = WHITE then
            ((floodFill b n pr pc V).2.2, bt, wt + (floodFill b n pr pc V).1.length)
          else ((floodFill b n pr pc V).2.2, bt, wt)) := by
        simp only [scoreCell]
        rw [if_pos ⟨hunv, hemp'⟩]
      rw [happ]
      by_cases hB : (floodFill b n pr pc V).2.1 = BLACK
      · rw [if_pos hB]
        have hBO := hoB.mp hB
        have hbt2 : bt + (floodFill b n pr pc V).1.length =
            Set.ncard {x | x ∈ S ∪ R ∧ RegionBorders b n x BLACK ∧
              ¬ RegionBorders b n x WHITE} := by
          rw [hkey BLACK WHITE, if_pos hBO, ← hbt]
        have hwt2 : wt = Set.ncard {x | x ∈ S ∪ R ∧
            RegionBorders b n x WHITE ∧ ¬ RegionBorders b n x BLACK} := by
          rw [hkey WHITE BLACK, if_neg (fun hP => hP.2 hBO.1), ← hwt]
          omega
        obtain ⟨S', hsub, h1, h2, h3, h4, h5, h6⟩ :=
          ih (floodFill b n pr pc V).2.2 _ _ (S ∪ R) hVd' hchar2 hS2in hS2cl
            hbt2 hwt2
        refine ⟨S', fun x hx => hsub (Or.inl hx), h1, h2, h3, h4, h5, ?_⟩
        intro x hx hxe
        rcases List.mem_cons.mp hx with rfl | hx
        · exact hsub (Or.inr (region_refl b n (pr, pc)))
        · exact h6 x hx hxe
      · rw [if_neg hB]
        by_cases hW : (floodFill b n pr pc V).2.1 = WHITE
        · rw [if_pos hW]
          have hWO := hoW.mp hW
          have hbt2 : bt = Set.ncard {x | x ∈ S ∪ R ∧
              RegionBorders b n x BLACK ∧ ¬ RegionBorders b n x WHITE} := by
            rw [hkey BLACK WHITE, if_neg (fun hP => hP.2 hWO.1), ← hbt]
            omega
          have hwt2 : wt + (floodFill b n pr pc V).1.length =
              Set.ncard {x | x ∈ S ∪ R ∧ RegionBorders b n x WHITE ∧
                ¬ RegionBorders b n x BLACK} := by
            rw [hkey WHITE BLACK, if_pos hWO, ← hwt]
          obtain ⟨S', hsub, h1, h2, h3, h4, h5, h6⟩ :=
            ih (floodFill b n pr pc V).2.2 _ _ (S ∪ R) hVd' hchar2 hS2in hS2cl
              hbt2 hwt2
          refine ⟨S', fun x hx => hsub (Or.inl hx), h1, h2, h3, h4, h5, ?_⟩
          intro x hx hxe
          rcases List.mem_cons.mp hx with rfl | hx
          · exact hsub (Or.inr (region_refl b n (pr, pc)))
          · exact h6 x hx hxe
        · rw [if_neg hW]
          have hbt2 : bt = Set.ncard {x | x ∈ S ∪ R ∧
              RegionBorders b n x BLACK ∧ ¬ RegionBorders b n x WHITE} := by
            rw [hkey BLACK WHITE, if_neg (fun hP => hB (hoB.mpr hP)), ← hbt]
            omega
          have hwt2 : wt = Set.ncard {x | x ∈ S ∪ R ∧
              RegionBorders b n x WHITE ∧ ¬ RegionBorders b n x BLACK} := by
            rw [hkey WHITE BLACK, if_neg (fun hP => hW (hoW.mpr hP)), ← hwt]
            omega
          obtain ⟨S', hsub, h1, h2, h3, h4, h5, h6⟩ :=
            ih (floodFill b n pr pc V).2.2 _ _ (S ∪ R) hVd' hchar2 hS2in hS2cl
              hbt2 hwt2
          refine ⟨S', fun x hx => hsub (Or.inl hx), h1, h2, h3, h4, h5, ?_⟩
          intro x hx hxe
          rcases List.mem_cons.mp hx with rfl | hx
          · exact hsub (Or.inr (region_refl b n (pr, pc)))
          · exact h6 x hx hxe
    · -- skip: visited already, or a stone
      have hskip : scoreCell b n (V, bt, wt) pr pc = (V, bt, wt) := by
        simp only [scoreCell]
        rw [if_neg hcond]
      rw [hskip]
      obtain ⟨S', hsub, h1, h2, h3, h4, h5, h6⟩ :=
        ih V bt wt S hVd hchar hSin hScl hbt hwt
      refine ⟨S', hsub, h1, h2, h3, h4, h5, ?_⟩
      intro x hx hxe
      rcases List.mem_cons.mp hx with rfl | hx
      · have hg : getV V pr pc = true := by
          by_contra hg
          exact hcond ⟨hg, hxe⟩
        exact hsub ((hchar (pr, pc)).mp hg)
      · exact h6 x hx hxe

/-- A 2x2 demonstration board: the left column is empty, the right column
is Black, so both empty cells form one region bordering only Black. -/
def c8Board : Board := [[EMPTY, BLACK], [EMPTY, BLACK]]

/-- C8: for every well-sized board whose cells are empty, Black or White,
`calculateScore` computes each side's territory as the number of empty
in-bounds cells whose maximal connected empty region borders that colour
and not the other; an empty cell whose region borders both colours, or no
stone at all (for instance on a fully empty board), is counted for
neither side. -/
theorem c8_territory (b : Board) (bc wc n : Nat) (hb : WellSized b n)
    (hcells : ∀ p : Pos, InBounds n p →
      cell b p.1 p.2 = EMPTY ∨ cell b p.1 p.2 = BLACK ∨ cell b p.1 p.2 = WHITE) :
    (calculateScore b bc wc n).blackTerritory =
      Set.ncard {p : Pos | InBounds n p ∧ EmptyAt b p ∧
        RegionBorders b n p BLACK ∧ ¬ RegionBorders b n p WHITE}
  ∧ (calculateScore b bc wc n).whiteTerritory =
      Set.ncard {p : Pos | InBounds n p ∧ EmptyAt b p ∧
        RegionBorders b n p WHITE ∧ ¬ RegionBorders b n p BLACK} := by
  obtain ⟨S', hsub, h1, h2, h3, h4, h5, h6⟩ :=
    scoreFold_spec b n hb hcells
      ((List.range n).flatMap (fun row =>
        (List.range n).map (fun col => (row, col))))
      (mkMatrix n false) 0 0 ∅ (mkMatrix_wellSized n false)
      (fun p => by simp [getV_mkMatrix_false])
      (fun p hp => hp.elim)
      (fun p hp => hp.elim)
      (by simp)
      (by simp)
  have hS' : S' = {p : Pos | InBounds n p ∧ EmptyAt b p} := by
    apply Set.Subset.antisymm
    · intro p hp
      exact ⟨(h2 p hp).1, (h2 p hp).2⟩
    · rintro ⟨pr, pc⟩ hp
      apply h6 (pr, pc) ?_ hp.2
      simp only [List.mem_flatMap, List.mem_map, List.mem_range]
      exact ⟨pr, hp.1.1, pc, hp.1.2, rfl⟩
  rw [hS'] at h4 h5
  constructor
  · simp only [calculateScore]
    rw [nested_foldl_pairs n (scoreCell b n) (List.range n), h4]
    congr 1
    ext x
    simp only [Set.mem_setOf_eq]
    tauto
  · simp only [calculateScore]
    rw [nested_foldl_pairs n (scoreCell b n) (List.range n), h5]
    congr 1
    ext x
    simp only [Set.mem_setOf_eq]
    tauto

/-- Witness for C8 on the concrete board `c8Board`: both hypotheses hold
and the territory characterization follows by applying the theorem. -/
theorem c8_territory_witness :
    (WellSized c8Board 2 ∧
      (∀ p : Pos, InBounds 2 p →
        cell c8Board p.1 p.2 = EMPTY ∨ cell c8Board p.1 p.2 = BLACK ∨
          cell c8Board p.1 p.2 = WHITE))
    ∧ ((calculateScore c8Board 0 0 2).blackTerritory =
        Set.ncard {p : Pos | InBounds 2 p ∧ EmptyAt c8Board p ∧
          RegionBorders c8Board 2 p BLACK ∧ ¬ RegionBorders c8Board 2 p WHITE}
      ∧ (calculateScore c8Board 0 0 2).whiteTerritory =
        Set.ncard {p : Pos | InBounds 2 p ∧ EmptyAt c8Board p ∧
          RegionBorders c8Board 2 p WHITE ∧
            ¬ RegionBorders c8Board 2 p BLACK}) := by
  have hcells : ∀ p : Pos, InBounds 2 p →
      cell c8Board p.1 p.2 = EMPTY ∨ cell c8Board p.1 p.2 = BLACK ∨
        cell c8Board p.1 p.2 = WHITE := by
    rintro ⟨r, c⟩ hp
    obtain ⟨h1, h2⟩ : r < 2 ∧ c < 2 := hp
    interval_cases r <;> interval_cases c <;> decide
  have hws : WellSized c8Board 2 := by
    unfold WellSized
    decide
  exact ⟨⟨hws, hcells⟩, c8_territory c8Board 0 0 2 hws hcells⟩

end GoGame
